import Mathlib

/-!
Verification development for the `gobjects` genomic-interval library.

The Python source is embedded shallowly:
* records (`Interval`, `Bed6`, `Bed12`, `Gtf`, `Bedpe`) become Lean structures;
* Python `int` becomes `Int`; text becomes `String` / `List Char`;
* the chromosome natural-sort key (`prep_chrom_comp`, built on
  `re.split('([0-9]+)', chrom)`) becomes an executable tokenizer over code points;
* fallible operations (the `intersect` dispatcher, attribute parsing) return `Except`;
* the in-place sort performed by `IntervalNode._set_bounds` is modelled by explicit
  state passing: the constructor returns the caller's list as it is observable after
  construction.
-/

namespace Gobjects

-- ---------------------------------------------------------------------------
-- Chromosome ordering key: `prep_chrom_comp` from core/intervals.py
-- ---------------------------------------------------------------------------

/-- A token of the chromosome sort key.  Python's `prep_chrom_comp` produces a list
whose entries are either `int(run)` for a maximal digit run or `run.lower()` for the
text between digit runs.  Strings are represented by their code-point sequences
(Python compares strings by code points). -/
inductive Tok where
  | str (s : List Nat)
  | num (n : Nat)
deriving DecidableEq, Repr

/-- Python `int(digits)` on a list of decimal digit characters. -/
def natOfDigits (l : List Char) : Nat :=
  l.foldl (fun n c => 10 * n + (c.toNat - 48)) 0

/-- Code points of the lower-cased text run (`substr.lower()`; ASCII lowering, which
is all chromosome labels use). -/
def lowerCodes (l : List Char) : List Nat :=
  l.map (fun c => c.toLower.toNat)

/-- Longest prefix satisfying `p`, with the rest (used to take maximal runs). -/
def spanP (p : Char → Bool) : List Char → List Char × List Char
  | [] => ([], [])
  | c :: cs =>
    if p c then
      let r := spanP p cs
      (c :: r.1, r.2)
    else ([], c :: cs)

/-- The split `re.split('([0-9]+)', s)` followed by `recode`: alternating (possibly empty)
text pieces and captured digit runs, text lowered, digit runs as numbers.  The fuel
argument exceeds the input length, and every recursive step consumes at least the
nonempty digit run, so the fuel is never exhausted on the initial call. -/
def tokenizeAux : Nat → List Char → List Tok
  | 0, _ => []
  | fuel + 1, l =>
    let s := spanP (fun c => !c.isDigit) l
    match s.2 with
    | [] => [Tok.str (lowerCodes s.1)]
    | _ :: _ =>
      let d := spanP Char.isDigit s.2
      Tok.str (lowerCodes s.1) :: Tok.num (natOfDigits d.1) :: tokenizeAux fuel d.2

/-- Function `prep_chrom_comp(chrom)` from core/intervals.py: the natural-sort key of a
chromosome label, e.g. `chr1 ↦ [str "chr", num 1, str ""]`. -/
def prep_chrom_comp (chrom : String) : List Tok :=
  tokenizeAux (chrom.toList.length + 1) chrom.toList

/-- Python's lexicographic `<` on sequences, given a strict order on elements:
the first position where the elements differ decides, and a strict prefix
compares below the longer sequence. -/
def lexListLt {α : Type} (ltb : α → α → Bool) : List α → List α → Bool
  | [], [] => false
  | [], _ :: _ => true
  | _ :: _, [] => false
  | a :: as, b :: bs =>
    if ltb a b then true else if ltb b a then false else lexListLt ltb as bs

/-- Lexicographic order on code-point lists: Python string `<`. -/
def listNatLt : List Nat → List Nat → Bool :=
  lexListLt (fun a b => decide (a < b))

/-- Order on key tokens.  `num`/`num` is numeric, `str`/`str` is Python string
comparison.  A mixed pair never arises between two `prep_chrom_comp` keys (both
lists alternate text and number positions, and Python's list comparison proceeds
position by position), so the mixed case here follows the documented convention
that a numeric token compares below a string token (CPython itself would raise
`TypeError`). -/
def tokLt : Tok → Tok → Bool
  | .num a, .num b => decide (a < b)
  | .str a, .str b => listNatLt a b
  | .num _, .str _ => true
  | .str _, .num _ => false

/-- Python list comparison on key token lists: first position where the tokens
differ decides; a strict prefix compares below. -/
def keyLt : List Tok → List Tok → Bool := lexListLt tokLt

-- ---------------------------------------------------------------------------
-- Data model: Interval (core/intervals.py), Bed6/Bed12 (core/bed.py),
-- Gtf (core/gtf.py), Bedpe (core/bedpe.py)
-- ---------------------------------------------------------------------------

/-- Class `Interval` from core/intervals.py: 0-based half-open `[chromStart, chromEnd)`. -/
structure Interval where
  chrom : String
  chromStart : Int
  chromEnd : Int
  name : String
deriving DecidableEq, Repr

/-- Derived field set in `Interval.__post_init__`: `zero_idx_start = chromStart`. -/
def Interval.zero_idx_start (i : Interval) : Int := i.chromStart

/-- Derived field set in `Interval.__post_init__`: `zero_idx_end = chromEnd - 1`. -/
def Interval.zero_idx_end (i : Interval) : Int := i.chromEnd - 1

/-- Method `Interval.__lt__`: compare natural-sort chromosome keys, then start, then end. -/
def Interval.lt (a b : Interval) : Bool :=
  if keyLt (prep_chrom_comp a.chrom) (prep_chrom_comp b.chrom) then true
  else if keyLt (prep_chrom_comp b.chrom) (prep_chrom_comp a.chrom) then false
  else
    decide (a.chromStart < b.chromStart) ||
      (decide (a.chromStart = b.chromStart) && decide (a.chromEnd < b.chromEnd))

/-- Method `Interval.__gt__`: compare chromosome keys; on equal keys the source computes
`(self.chromStart > other.chromStart) or ((self.chromEnd == other.chromEnd) and
(self.chromStart > other.chromStart))` — the second disjunct repeats the start
comparison instead of falling back to the ends, exactly as written. -/
def Interval.gt (a b : Interval) : Bool :=
  if keyLt (prep_chrom_comp a.chrom) (prep_chrom_comp b.chrom) then false
  else if keyLt (prep_chrom_comp b.chrom) (prep_chrom_comp a.chrom) then true
  else
    decide (a.chromStart > b.chromStart) ||
      (decide (a.chromEnd = b.chromEnd) && decide (a.chromStart > b.chromStart))

/-- Method `Interval.__eq__`: identical chrom, chromStart, chromEnd (name ignored). -/
def Interval.eqb (a b : Interval) : Bool :=
  a.chrom == b.chrom && decide (a.chromStart = b.chromStart) &&
    decide (a.chromEnd = b.chromEnd)

/-- Class `Bed6` from core/bed.py: `Interval` plus score and strand (score kept as the
raw text the constructor received; its numeric coercion plays no role in ordering
or intersection). -/
structure Bed6 extends Interval where
  score : String
  strand : String
deriving DecidableEq, Repr

/-- Class `Bed12` from core/bed.py: `Bed6` plus the six display/block fields. -/
structure Bed12 extends Bed6 where
  thickStart : Int
  thickEnd : Int
  itemRgb : String
  blockCount : Int
  blockSizes : String
  blockStarts : String
deriving DecidableEq, Repr

/-- Class `Gtf` from core/gtf.py: 1-based inclusive `[chromStart, chromEnd]`.  `score`
is kept as raw text (its float coercion plays no role in the claims below). -/
structure Gtf where
  chrom : String
  source : String
  feature : String
  chromStart : Int
  chromEnd : Int
  score : String
  strand : String
  frame : String
  attributes : String
deriving DecidableEq, Repr

/-- Derived field from `Gtf.__post_init__`: `zero_idx_start = chromStart - 1`. -/
def Gtf.zero_idx_start (g : Gtf) : Int := g.chromStart - 1

/-- Derived field from `Gtf.__post_init__`: `zero_idx_end = chromEnd - 1`. -/
def Gtf.zero_idx_end (g : Gtf) : Int := g.chromEnd - 1

/-- Class `Bedpe` from core/bedpe.py (present so the dispatcher's behaviour on
non-contiguous records is stated over the full record family). -/
structure Bedpe where
  chrom1 : String
  chromStart1 : Int
  chromEnd1 : Int
  chrom2 : String
  chromStart2 : Int
  chromEnd2 : Int
  name : String
  score : String
  strand1 : String
  strand2 : String
  attributes : String
deriving DecidableEq, Repr

/-- The record kinds the `intersect` dispatcher can receive. -/
inductive GObj where
  | interval (i : Interval)
  | gtf (g : Gtf)
  | bed6 (b : Bed6)
  | bed12 (b : Bed12)
  | bedpe (p : Bedpe)
deriving DecidableEq, Repr

-- ---------------------------------------------------------------------------
-- Intersection algebra: operations/intersect.py
-- ---------------------------------------------------------------------------

/-- Python exceptions surfaced by the dispatcher (messages elided). -/
inductive PyErr where
  | typeError
  | attributeError
deriving DecidableEq, Repr

/-- Function `intersect_BEDtoBED(gobjA, gobjB, strand_aware)` from operations/intersect.py.
The leading strand gate (`if strand_aware and (gobjA.strand != gobjB.strand)`)
reads a `.strand` attribute that `Interval` does not define; every dispatcher path
reaching this function with `strand_aware=True` has already raised inside
`check_stranded`, so the gate is unreachable there and is omitted here.  Note the
source returns `True` when the chromosomes differ. -/
def intersect_BEDtoBED (gobjA gobjB : Interval) : Bool :=
  if gobjA.chrom ≠ gobjB.chrom then true
  else
    !(decide (gobjB.chromEnd ≤ gobjA.chromStart) ||
      decide (gobjB.chromStart ≥ gobjA.chromEnd))

/-- Function `intersect_GTFtoGTF(gobjA, gobjB, strand_aware)` from operations/intersect.py:
GTF ends are right-inclusive; no chromosome comparison appears in the source. -/
def intersect_GTFtoGTF (gobjA gobjB : Gtf) (strand_aware : Bool) : Bool :=
  if strand_aware && gobjA.strand ≠ gobjB.strand then false
  else
    !(decide (gobjB.chromEnd < gobjA.chromStart) ||
      decide (gobjB.chromStart > gobjA.chromEnd))

/-- Function `intersect_BEDtoGTF(gobjA, gobjB, strand_aware)` from operations/intersect.py,
first operand BED-like, second GTF-like.  The strand gate is unreachable through
the dispatcher for the same reason as in `intersect_BEDtoBED` and is omitted. -/
def intersect_BEDtoGTF (gobjA : Interval) (gobjB : Gtf) : Bool :=
  !(decide (gobjB.chromEnd < gobjA.chromStart) ||
    decide (gobjB.chromStart ≥ gobjA.chromEnd))

/-- Python `hasattr(gobj, "strand")` for each record kind: `Interval` has none, `Bedpe`
has only `strand1`/`strand2`. -/
def hasStrand : GObj → Bool
  | .interval _ => false
  | .gtf _ => true
  | .bed6 _ => true
  | .bed12 _ => true
  | .bedpe _ => false

/-- Dispatcher `intersect(a_obj, b_obj, strand_aware)` from operations/intersect.py.
`check_stranded` raises `AttributeError` for a strand-less operand when
`strand_aware` is set.  Type dispatch uses exact class tests (`type(x) == ...`),
so `Bed6`/`Bed12` never match the `Interval` branches.  The source's fourth branch
repeats the third branch's guard (`type(a_obj) == Interval and type(b_obj) == GTF`)
with swapped call arguments ("switch a and b for gtf to bed"); it can never fire,
so a `(Gtf, Interval)` operand pair falls through to the final `TypeError`,
matched here by the catch-all case. -/
def intersect (a_obj b_obj : GObj) (strand_aware : Bool) : Except PyErr Bool :=
  if strand_aware && (!hasStrand a_obj || !hasStrand b_obj) then
    .error .attributeError
  else
    match a_obj, b_obj with
    | .interval A, .interval B => .ok (intersect_BEDtoBED A B)
    | .gtf A, .gtf B => .ok (intersect_GTFtoGTF A B strand_aware)
    | .interval A, .gtf B => .ok (intersect_BEDtoGTF A B)
    | _, _ => .error .typeError

-- ---------------------------------------------------------------------------
-- Gtf attribute parsing: `Gtf.__post_init__` in core/gtf.py
-- ---------------------------------------------------------------------------

/-- A value in the attribute mapping.  `check_and_convert_nums` turns text that
matches the numeric pattern into `float(text)` and leaves other text unchanged;
here a matched value keeps its source text under the `num` tag (its floating-point
value plays no role in the claims), and unmatched text is `str`. -/
inductive AttrVal where
  | num (s : String)
  | str (s : String)
deriving DecidableEq, Repr

/-- Whether `l` matches `(\d+(\.\d+)?)|(\.\d+)` exactly (the body of the
`check_and_convert_nums` pattern after the optional sign). -/
def numPatternBody (l : List Char) : Bool :=
  match l with
  | '.' :: rest =>
    let d := spanP Char.isDigit rest
    decide (d.1 ≠ []) && decide (d.2 = [])
  | _ =>
    let d := spanP Char.isDigit l
    if d.1 = [] then false
    else
      match d.2 with
      | [] => true
      | '.' :: rest =>
        let d2 := spanP Char.isDigit rest
        decide (d2.1 ≠ []) && decide (d2.2 = [])
      | _ => false

/-- Whether the whole string matches `^[+-]?((\d+(\.\d+)?)|(\.\d+))$`. -/
def matchesNumPattern (s : String) : Bool :=
  match s.toList with
  | [] => false
  | c :: rest =>
    if c == '+' || c == '-' then numPatternBody rest else numPatternBody (c :: rest)

/-- Function `check_and_convert_nums(string)` from core/gtf.py. -/
def check_and_convert_nums (string : String) : AttrVal :=
  if matchesNumPattern string then .num string else .str string

/-- Python `s.strip(ch)`: remove every leading and trailing occurrence of `ch`. -/
def stripChar (ch : Char) (s : String) : String :=
  let l := (spanP (· == ch) s.toList).2
  String.mk ((spanP (· == ch) l.reverse).2).reverse

/-- Python `s.split()` with no argument: split on whitespace runs, dropping empty
pieces.  Fuel exceeds the input length; every step consumes the nonempty word. -/
def wsSplitAux : Nat → List Char → List (List Char)
  | 0, _ => []
  | fuel + 1, l =>
    match (spanP Char.isWhitespace l).2 with
    | [] => []
    | c :: cs =>
      let w := spanP (fun ch => !ch.isWhitespace) (c :: cs)
      w.1 :: wsSplitAux fuel w.2

/-- Python `s.split()` lifted to `String`. -/
def pySplitWhitespace (s : String) : List String :=
  (wsSplitAux (s.toList.length + 1) s.toList).map String.mk

/-- Split at the first occurrence of `sep`; `none` when `sep` does not occur. -/
def breakOnSep (sep : List Char) : List Char → Option (List Char × List Char)
  | [] => none
  | c :: cs =>
    if sep.isPrefixOf (c :: cs) then some ([], (c :: cs).drop sep.length)
    else
      match breakOnSep sep cs with
      | none => none
      | some (pre, post) => some (c :: pre, post)

/-- Python `s.split(sep)` for a nonempty separator: non-overlapping occurrences,
left to right, keeping empty pieces.  Fuel exceeds the input length; every
recursive step consumes at least the separator. -/
def pySplitSep (sep : List Char) : Nat → List Char → List (List Char)
  | 0, l => [l]
  | fuel + 1, l =>
    match breakOnSep sep l with
    | none => [l]
    | some (pre, post) => pre :: pySplitSep sep fuel post

/-- The attribute-parsing loop of `Gtf.__post_init__` (core/gtf.py): split
`attributes` on `"; "`; unless the split is `['']`, strip `;` from both ends of
each pair, split it on whitespace, strip `"` from both tokens, and insert the
key/converted-value into the ordered mapping (a repeated key appends to its
list).  A pair that does not produce exactly two tokens fails at the
`k, v = ...` unpacking with `ValueError`. -/
def attrInsert (m : List (String × List AttrVal)) (k : String) (v : AttrVal) :
    List (String × List AttrVal) :=
  match m with
  | [] => [(k, [v])]
  | (k', vs) :: rest =>
    if k' == k then (k', vs ++ [v]) :: rest else (k', vs) :: attrInsert rest k v

/-- The `attr_dict` computed by `Gtf.__post_init__` from the raw attribute text. -/
def gtf_attr_dict (attributes : String) :
    Except String (List (String × List AttrVal)) :=
  let pre_proc_attr :=
    (pySplitSep "; ".toList (attributes.toList.length + 1) attributes.toList).map
      String.mk
  if pre_proc_attr = [""] then .ok []
  else
    pre_proc_attr.foldlM
      (fun m pair =>
        match (pySplitWhitespace (stripChar ';' pair)).map (stripChar '"') with
        | [k, v] => .ok (attrInsert m k (check_and_convert_nums v))
        | _ => .error "ValueError")
      []

/-- Field-style accessor for the `attr_dict` of a constructed `Gtf`. -/
def Gtf.attr_dict (g : Gtf) : Except String (List (String × List AttrVal)) :=
  gtf_attr_dict g.attributes

-- ---------------------------------------------------------------------------
-- Sorting: Python's stable `sorted` / `list.sort` over `Interval.__lt__`
-- ---------------------------------------------------------------------------

/-- The comparison Python's sort consults: element `a` may precede `b` exactly
when `not (b < a)` under `Interval.__lt__`. -/
def pyLe (a b : Interval) : Bool := !(Interval.lt b a)

/-- Insert into an already sorted list, before the first element it may precede. -/
def pyInsert (a : Interval) : List Interval → List Interval
  | [] => [a]
  | b :: l => if pyLe a b then a :: b :: l else b :: pyInsert a l

/-- Python's `sorted` / `list.sort`: a stable sort consulting only `__lt__`.
`Interval.__lt__` is a strict weak order (proved below), so every stable sort
w.r.t. `pyLe` yields the same list; it is realized here as an insertion sort. -/
def pySort (l : List Interval) : List Interval := l.foldr pyInsert []

-- ---------------------------------------------------------------------------
-- Interval index: IntervalNode and IntervalMap from core/intervalmap.py
-- ---------------------------------------------------------------------------

/-- Class `IntervalNode`: one bin of same-chromosome intervals with the cached bounds
computed by `_set_bounds`. -/
structure IntervalNode where
  chrom : String
  intervals : List Interval
  zero_idx_start : Int
  zero_idx_end : Int
deriving DecidableEq, Repr

/-- Bound `self.intervals[0].zero_idx_start`; junk `0` on the empty list, where Python
would raise `IndexError` (`create_map` never builds an empty bin). -/
def headZeroIdxStart : List Interval → Int
  | [] => 0
  | i :: _ => i.zero_idx_start

/-- Bound `max([i.zero_idx_end for i in self.intervals])`; junk `0` on the empty list,
where Python's `max` would raise (`create_map` never builds an empty bin). -/
def maxZeroIdxEnd : List Interval → Int
  | [] => 0
  | [i] => i.zero_idx_end
  | i :: j :: is => max i.zero_idx_end (maxZeroIdxEnd (j :: is))

/-- Constructor `IntervalNode.__init__` with `isSorted=True` (no sort): record the list and
set the `_set_bounds` bounds. -/
def mkIntervalNode (chrom : String) (intervals : List Interval) : IntervalNode :=
  { chrom := chrom, intervals := intervals,
    zero_idx_start := headZeroIdxStart intervals,
    zero_idx_end := maxZeroIdxEnd intervals }

/-- Constructor `IntervalNode.__init__(chrom, intervals, isSorted)` with the caller's list
made explicit: `_set_bounds` calls `self.intervals.sort()` when `isSorted` is
false, and `self.intervals` is the very list object the caller passed, so the
constructor returns both the node and that list as observable after
construction.  `none` models the `IndexError` Python raises on an empty list. -/
def intervalNode_init (chrom : String) (intervals : List Interval)
    (isSorted : Bool) : Option (IntervalNode × List Interval) :=
  let l := if isSorted then intervals else pySort intervals
  match l with
  | [] => none
  | _ :: _ => some (mkIntervalNode chrom l, l)

/-- The chromosome-level `OrderedDict` filling loop of `IntervalMap.create_map`:
an unseen chromosome key is appended at the end with a fresh singleton list, an
existing key's list is extended in place. -/
def chromAdd (m : List (String × List Interval)) (i : Interval) :
    List (String × List Interval) :=
  match m with
  | [] => [(i.chrom, [i])]
  | (c, l) :: rest =>
    if c == i.chrom then (c, l ++ [i]) :: rest else (c, l) :: chromAdd rest i

/-- The chromosome-level map after the first loop of `create_map`. -/
def chromGroup (ilist : List Interval) : List (String × List Interval) :=
  ilist.foldl chromAdd []

/-- Ordered-map lookup: first entry with the given key. -/
def mapLookup {α : Type} (c : String) : List (String × α) → Option α
  | [] => none
  | (c', v) :: rest => if c' == c then some v else mapLookup c rest

/-- The `for bin_num in range(self.subnodes)` loop of `create_map`: repeatedly
slice `intervals_per_node` records off the front of `clist` into an
`IntervalNode` (built with `isSorted=True`); returns the bins together with the
remaining `clist`. -/
def takeBins (chrom : String) (per : Nat) : Nat → List Interval →
    List IntervalNode × List Interval
  | 0, cl => ([], cl)
  | k + 1, cl =>
    let node := mkIntervalNode chrom (cl.take per)
    let r := takeBins chrom per k (cl.drop per)
    (node :: r.1, r.2)

/-- Step `bins[-1].intervals.extend(clist)` followed by
`bins[-1]._set_bounds(isSorted=True)`: append the remainder to the last bin and
recompute its bounds.  The empty-bins case is unreachable (`bins[-1]` would
raise in Python; `create_map` reaches this only with at least one bin). -/
def extendLast (rest : List Interval) : List IntervalNode → List IntervalNode
  | [] => []
  | [nd] => [mkIntervalNode nd.chrom (nd.intervals ++ rest)]
  | nd :: nds => nd :: extendLast rest nds

/-- The bins `create_map` builds for one chromosome once the per-bin size and
bin count are fixed: slice off the bins (`takeBins`), then — `if len(clist) >
0` — append the remaining records to the last bin. -/
def binsOf (chrom : String) (per k : Nat) (clist : List Interval) :
    List IntervalNode :=
  let r := takeBins chrom per k clist
  if r.2 = [] then r.1 else extendLast r.2 r.1

/-- The per-chromosome binning of `create_map`: `intervals_per_node =
int(len(clist) / self.subnodes)`; if it is less than 1, assign `self.subnodes =
len(clist)` (a lasting mutation of the map object) and use one record per node;
slice off `self.subnodes` bins and append any remainder to the last bin.
Returns the bins together with the possibly-shrunk `subnodes`.  (`subnodes` is
never 0 on states reachable from `IntervalMap.__init__`, where Python's
division would raise; Lean's `n / 0 = 0` lands in the same shrink branch.) -/
def binChrom (subnodes : Nat) (chrom : String) (clist : List Interval) :
    List IntervalNode × Nat :=
  if clist.length / subnodes < 1 then
    (binsOf chrom 1 clist.length clist, clist.length)
  else
    (binsOf chrom (clist.length / subnodes) subnodes clist, subnodes)

/-- The consecutive `per`-sized chunks the binning loop slices off (used to
characterize `takeBins`). -/
def slices (per : Nat) : Nat → List Interval → List (List Interval)
  | 0, _ => []
  | k + 1, cl => cl.take per :: slices per k (cl.drop per)

/-- The `for chrom in self._map.keys()` loop of `create_map`, threading the
mutable `self.subnodes` through the chromosomes in map order. -/
def binAll (subnodes : Nat) : List (String × List Interval) →
    List (String × List IntervalNode)
  | [] => []
  | (c, clist) :: rest =>
    let r := binChrom subnodes c clist
    (c, r.1) :: binAll r.2 rest

/-- Method `IntervalMap.create_map(interval_list, isSorted)` with the `subnodes` bin
count from `IntervalMap.__init__` (default 20): sort unless the caller says the
input is sorted, group by chromosome into the ordered map, then bin each
chromosome's list. -/
def create_map (interval_list : List Interval) (isSorted : Bool)
    (subnodes : Nat) : List (String × List IntervalNode) :=
  let ilist := if isSorted then interval_list else pySort interval_list
  binAll subnodes (chromGroup ilist)

/-- The bin sizes C7 predicts for a chromosome holding `n` sorted records at the
requested bin count 20: `n` singleton bins when `n < 20`, otherwise 20 bins of
`n / 20` records with the remainder appended to the last bin. -/
def expectedBinSizes (n : Nat) : List Nat :=
  if n < 20 then List.replicate n 1
  else List.replicate 19 (n / 20) ++ [n / 20 + n % 20]

/-- Concrete build input for the bin-size claims: two records on `chr1` followed
by 45 records on `chr2`, listed in sorted order. -/
def binCountInput : List Interval :=
  ⟨"chr1", 0, 10, "a"⟩ :: ⟨"chr1", 5, 15, "b"⟩ ::
    List.replicate 45 ⟨"chr2", 0, 10, "r"⟩

/-- Concrete build input holding 45 sorted records on `chr1` alone. -/
def fortyFiveChr1 : List Interval := List.replicate 45 ⟨"chr1", 0, 10, "r"⟩

/-- A two-record list that is out of ascending order. -/
def unsortedPair : List Interval :=
  [⟨"chr1", 5, 9, "b"⟩, ⟨"chr1", 0, 3, "a"⟩]

-- ---------------------------------------------------------------------------
-- The index over the full contiguous family.  Python's IntervalMap and the
-- comparators are duck-typed over the attributes chrom / chromStart /
-- chromEnd / zero_idx_start / zero_idx_end; `Interval.__lt__`/`__gt__` and
-- `Gtf.__lt__`/`__gt__` have identical bodies and `Bed6`/`Bed12` inherit
-- `Interval`'s, so one comparator over the projections is faithful for every
-- contiguous kind.  The `Interval`-specialized build above is kept for the
-- bin-size and node-constructor claims; the build below is the same
-- `create_map` admitting every contiguous kind, as the kind-polymorphic
-- index claim requires.
-- ---------------------------------------------------------------------------

/-- A contiguous record: the kinds the spec's build contract admits. -/
inductive ContRec where
  | interval (i : Interval)
  | bed6 (b : Bed6)
  | bed12 (b : Bed12)
  | gtf (g : Gtf)
deriving DecidableEq, Repr

/-- Duck-typed `chrom` attribute. -/
def ContRec.chrom : ContRec → String
  | .interval i => i.chrom
  | .bed6 b => b.chrom
  | .bed12 b => b.chrom
  | .gtf g => g.chrom

/-- Duck-typed `chromStart` attribute. -/
def ContRec.chromStart : ContRec → Int
  | .interval i => i.chromStart
  | .bed6 b => b.chromStart
  | .bed12 b => b.chromStart
  | .gtf g => g.chromStart

/-- Duck-typed `chromEnd` attribute. -/
def ContRec.chromEnd : ContRec → Int
  | .interval i => i.chromEnd
  | .bed6 b => b.chromEnd
  | .bed12 b => b.chromEnd
  | .gtf g => g.chromEnd

/-- Duck-typed `zero_idx_start`: `chromStart` for the BED-convention kinds,
`chromStart - 1` for `Gtf` (each `__post_init__` sets it so). -/
def ContRec.zero_idx_start : ContRec → Int
  | .interval i => i.zero_idx_start
  | .bed6 b => b.chromStart
  | .bed12 b => b.chromStart
  | .gtf g => g.zero_idx_start

/-- Duck-typed `zero_idx_end`: `chromEnd - 1` for every contiguous kind. -/
def ContRec.zero_idx_end : ContRec → Int
  | .interval i => i.zero_idx_end
  | .bed6 b => b.chromEnd - 1
  | .bed12 b => b.chromEnd - 1
  | .gtf g => g.zero_idx_end

/-- The record as the `intersect` dispatcher receives it. -/
def ContRec.toGObj : ContRec → GObj
  | .interval i => .interval i
  | .bed6 b => .bed6 b
  | .bed12 b => .bed12 b
  | .gtf g => .gtf g

/-- The contiguous view of a dispatcher operand; `none` for `Bedpe`, the
non-contiguous kind the query rejects. -/
def ContRec.ofGObj : GObj → Option ContRec
  | .interval i => some (.interval i)
  | .bed6 b => some (.bed6 b)
  | .bed12 b => some (.bed12 b)
  | .gtf g => some (.gtf g)
  | .bedpe _ => none

/-- The shared body of `__lt__` on every contiguous kind. -/
def ContRec.lt (a b : ContRec) : Bool :=
  if keyLt (prep_chrom_comp a.chrom) (prep_chrom_comp b.chrom) then true
  else if keyLt (prep_chrom_comp b.chrom) (prep_chrom_comp a.chrom) then false
  else
    decide (a.chromStart < b.chromStart) ||
      (decide (a.chromStart = b.chromStart) && decide (a.chromEnd < b.chromEnd))

/-- The shared body of `__gt__` on every contiguous kind, including the
tie-break that repeats the start comparison. -/
def ContRec.gt (a b : ContRec) : Bool :=
  if keyLt (prep_chrom_comp a.chrom) (prep_chrom_comp b.chrom) then false
  else if keyLt (prep_chrom_comp b.chrom) (prep_chrom_comp a.chrom) then true
  else
    decide (a.chromStart > b.chromStart) ||
      (decide (a.chromEnd = b.chromEnd) && decide (a.chromStart > b.chromStart))

/-- The sort comparison over contiguous records: `not (b < a)`. -/
def pyLeC (a b : ContRec) : Bool := !(ContRec.lt b a)

/-- Stable insertion over contiguous records. -/
def pyInsertC (a : ContRec) : List ContRec → List ContRec
  | [] => [a]
  | b :: l => if pyLeC a b then a :: b :: l else b :: pyInsertC a l

/-- Python's stable `sorted` over contiguous records. -/
def pySortC (l : List ContRec) : List ContRec := l.foldr pyInsertC []

/-- A bin of contiguous records with its `_set_bounds` bounds. -/
structure ContNode where
  chrom : String
  intervals : List ContRec
  zero_idx_start : Int
  zero_idx_end : Int
deriving DecidableEq, Repr

/-- Bound `self.intervals[0].zero_idx_start` over contiguous records; junk `0`
on the empty list, where Python would raise. -/
def headZeroIdxStartC : List ContRec → Int
  | [] => 0
  | r :: _ => r.zero_idx_start

/-- Bound `max([i.zero_idx_end for i in self.intervals])` over contiguous
records; junk `0` on the empty list, where Python would raise. -/
def maxZeroIdxEndC : List ContRec → Int
  | [] => 0
  | [r] => r.zero_idx_end
  | r :: s :: rs => max r.zero_idx_end (maxZeroIdxEndC (s :: rs))

/-- Node construction with `isSorted=True` over contiguous records. -/
def mkContNode (chrom : String) (intervals : List ContRec) : ContNode :=
  { chrom := chrom, intervals := intervals,
    zero_idx_start := headZeroIdxStartC intervals,
    zero_idx_end := maxZeroIdxEndC intervals }

/-- The `OrderedDict` filling loop of `create_map` over contiguous records. -/
def chromAddC (m : List (String × List ContRec)) (i : ContRec) :
    List (String × List ContRec) :=
  match m with
  | [] => [(i.chrom, [i])]
  | (c, l) :: rest =>
    if c == i.chrom then (c, l ++ [i]) :: rest else (c, l) :: chromAddC rest i

/-- The chromosome-level map over contiguous records. -/
def chromGroupC (ilist : List ContRec) : List (String × List ContRec) :=
  ilist.foldl chromAddC []

/-- The bin-slicing loop of `create_map` over contiguous records. -/
def takeBinsC (chrom : String) (per : Nat) : Nat → List ContRec →
    List ContNode × List ContRec
  | 0, cl => ([], cl)
  | k + 1, cl =>
    let node := mkContNode chrom (cl.take per)
    let r := takeBinsC chrom per k (cl.drop per)
    (node :: r.1, r.2)

/-- The remainder-append step of `create_map` over contiguous records. -/
def extendLastC (rest : List ContRec) : List ContNode → List ContNode
  | [] => []
  | [nd] => [mkContNode nd.chrom (nd.intervals ++ rest)]
  | nd :: nds => nd :: extendLastC rest nds

/-- The bins for one chromosome over contiguous records. -/
def binsOfC (chrom : String) (per k : Nat) (clist : List ContRec) :
    List ContNode :=
  let r := takeBinsC chrom per k clist
  if r.2 = [] then r.1 else extendLastC r.2 r.1

/-- The per-chromosome binning of `create_map` over contiguous records,
including the lasting shrink of `self.subnodes`. -/
def binChromC (subnodes : Nat) (chrom : String) (clist : List ContRec) :
    List ContNode × Nat :=
  if clist.length / subnodes < 1 then
    (binsOfC chrom 1 clist.length clist, clist.length)
  else
    (binsOfC chrom (clist.length / subnodes) subnodes clist, subnodes)

/-- The chunks `takeBinsC` slices off (proof-side characterization). -/
def slicesC (per : Nat) : Nat → List ContRec → List (List ContRec)
  | 0, _ => []
  | k + 1, cl => cl.take per :: slicesC per k (cl.drop per)

/-- The per-chromosome loop of `create_map` over contiguous records,
threading the mutable `self.subnodes`. -/
def binAllC (subnodes : Nat) : List (String × List ContRec) →
    List (String × List ContNode)
  | [] => []
  | (c, clist) :: rest =>
    let r := binChromC subnodes c clist
    (c, r.1) :: binAllC r.2 rest

/-- Method `IntervalMap.create_map` over the full contiguous family (the
spec's build contract: a sequence of contiguous entities). -/
def create_mapC (interval_list : List ContRec) (isSorted : Bool)
    (subnodes : Nat) : List (String × List ContNode) :=
  let ilist := if isSorted then interval_list else pySortC interval_list
  binAllC subnodes (chromGroupC ilist)

/-- Modelled from the spec: step 2 of the section 4.5 query algorithm — the
section 4.3 coordinate-overlap rule applied to a bin's precomputed closed
bounds against the query's closed `zero_idx` bounds. -/
def binBoundsOverlapC (q : ContRec) (nd : ContNode) : Bool :=
  !(decide (nd.zero_idx_end < q.zero_idx_start) ||
    decide (nd.zero_idx_start > q.zero_idx_end))

/-- Modelled from the spec: step 3 of the section 4.5 query algorithm — scan
a bin's sorted records in order, appending a record when
`intersects(query, record, strandAware=false)` holds and stopping early at a
non-overlapping record with `record > query`; an error raised by `intersects`
(e.g. `TypeMismatchError` for a `Bed6` record) propagates, as section 7's
no-partial-result policy requires. -/
def scanBinC (q : ContRec) : List ContRec → Except PyErr (List ContRec)
  | [] => .ok []
  | r :: rs =>
    match intersect q.toGObj r.toGObj false with
    | .error e => .error e
    | .ok ov =>
      if ov then
        match scanBinC q rs with
        | .error e => .error e
        | .ok rest => .ok (r :: rest)
      else if ContRec.gt r q then .ok []
      else scanBinC q rs

/-- Modelled from the spec: scan the kept bins in order, concatenating their
results; a failing bin scan fails the query. -/
def scanBinsC (q : ContRec) : List ContNode → Except PyErr (List ContRec)
  | [] => .ok []
  | nd :: nds =>
    match scanBinC q nd.intervals with
    | .error e => .error e
    | .ok xs =>
      match scanBinsC q nds with
      | .error e => .error e
      | .ok ys => .ok (xs ++ ys)

/-- Modelled from the spec: `intersect_IntervalMap(query, map)` (imported by
operations/__init__.py but absent from the source), over the full contiguous
family — a non-contiguous (`Bedpe`) query fails with `TypeMismatchError`;
otherwise look up the query's chromosome (absent chromosome gives the empty
result), keep the bins whose precomputed bounds overlap the query, and scan
each kept bin in order. -/
def intersect_IntervalMap (q_obj : GObj)
    (m : List (String × List ContNode)) : Except PyErr (List ContRec) :=
  match ContRec.ofGObj q_obj with
  | none => .error .typeError
  | some q =>
    match mapLookup q.chrom m with
    | none => .ok []
    | some bins => scanBinsC q (bins.filter (binBoundsOverlapC q))

/-- The closed zero-indexed overlap that both same-kind intersect routines
compute on a shared chromosome: the section 4.3 rule on `zero_idx` bounds. -/
def zOverlap (q r : ContRec) : Bool :=
  !(decide (r.zero_idx_end < q.zero_idx_start) ||
    decide (r.zero_idx_start > q.zero_idx_end))

-- ---------------------------------------------------------------------------
-- The chromosome key comparison and `Interval.__lt__` are strict weak orders
-- ---------------------------------------------------------------------------

theorem lexListLt_asymm {α : Type} (ltb : α → α → Bool)
    (hasym : ∀ a b, ltb a b = true → ltb b a = false) :
    ∀ x y : List α, lexListLt ltb x y = true → lexListLt ltb y x = false
  | [], [] => by simp [lexListLt]
  | [], _ :: _ => by simp [lexListLt]
  | _ :: _, [] => by simp [lexListLt]
  | a :: as, b :: bs => by
    intro h
    simp only [lexListLt] at h ⊢
    cases hab : ltb a b with
    | true => simp [hasym a b hab, hab]
    | false =>
      cases hba : ltb b a with
      | true => simp [hab, hba] at h
      | false =>
        simp only [hab, hba] at h ⊢
        simpa using lexListLt_asymm ltb hasym as bs (by simpa using h)

theorem lexListLt_eq_of_not {α : Type} (ltb : α → α → Bool)
    (heq : ∀ a b, ltb a b = false → ltb b a = false → a = b) :
    ∀ x y : List α, lexListLt ltb x y = false → lexListLt ltb y x = false → x = y
  | [], [] => by simp
  | [], _ :: _ => by simp [lexListLt]
  | _ :: _, [] => by simp [lexListLt]
  | a :: as, b :: bs => by
    intro h1 h2
    simp only [lexListLt] at h1 h2
    cases hab : ltb a b with
    | true => simp [hab] at h1
    | false =>
      cases hba : ltb b a with
      | true => simp [hab, hba] at h2
      | false =>
        simp only [hab, hba] at h1 h2
        have := lexListLt_eq_of_not ltb heq as bs (by simpa using h1)
          (by simpa using h2)
        rw [heq a b hab hba, this]

theorem lexListLt_trans {α : Type} (ltb : α → α → Bool)
    (htrans : ∀ a b c, ltb a b = true → ltb b c = true → ltb a c = true)
    (heq : ∀ a b, ltb a b = false → ltb b a = false → a = b) :
    ∀ x y z : List α, lexListLt ltb x y = true → lexListLt ltb y z = true →
      lexListLt ltb x z = true
  | [], [], _ => by intro h; simp [lexListLt] at h
  | _ :: _, [], _ => by intro h; simp [lexListLt] at h
  | _, _ :: _, [] => by intro _ h; simp [lexListLt] at h
  | [], _ :: _, _ :: _ => by simp [lexListLt]
  | a :: as, b :: bs, c :: cs => by
    intro h1 h2
    simp only [lexListLt] at h1 h2 ⊢
    cases hab : ltb a b with
    | true =>
      cases hbc : ltb b c with
      | true => simp [htrans a b c hab hbc]
      | false =>
        cases hcb : ltb c b with
        | true => simp [hab, hbc, hcb] at h2
        | false => rw [heq b c hbc hcb] at hab; simp [hab]
    | false =>
      cases hba : ltb b a with
      | true => simp [hab, hba] at h1
      | false =>
        have hab' := heq a b hab hba
        subst hab'
        cases hac : ltb a c with
        | true => simp
        | false =>
          cases hca : ltb c a with
          | true => simp [hac, hca] at h2
          | false =>
            simp only [hab, hac, hca] at h1 h2 ⊢
            simpa using lexListLt_trans ltb htrans heq as bs cs
              (by simpa using h1) (by simpa using h2)

theorem natLtb_asymm (a b : Nat) (h : decide (a < b) = true) :
    decide (b < a) = false := by
  simp only [decide_eq_true_eq] at h
  simp only [decide_eq_false_iff_not]
  omega

theorem natLtb_trans (a b c : Nat) (h1 : decide (a < b) = true)
    (h2 : decide (b < c) = true) : decide (a < c) = true := by
  simp only [decide_eq_true_eq] at h1 h2 ⊢
  omega

theorem natLtb_eq_of_not (a b : Nat) (h1 : decide (a < b) = false)
    (h2 : decide (b < a) = false) : a = b := by
  simp only [decide_eq_false_iff_not] at h1 h2
  omega

theorem listNatLt_asymm (x y : List Nat) (h : listNatLt x y = true) :
    listNatLt y x = false :=
  lexListLt_asymm _ natLtb_asymm x y h

theorem listNatLt_trans (x y z : List Nat) (h1 : listNatLt x y = true)
    (h2 : listNatLt y z = true) : listNatLt x z = true :=
  lexListLt_trans _ natLtb_trans natLtb_eq_of_not x y z h1 h2

theorem listNatLt_eq_of_not (x y : List Nat) (h1 : listNatLt x y = false)
    (h2 : listNatLt y x = false) : x = y :=
  lexListLt_eq_of_not _ natLtb_eq_of_not x y h1 h2

theorem tokLt_asymm : ∀ a b : Tok, tokLt a b = true → tokLt b a = false
  | .str x, .str y, h => listNatLt_asymm x y h
  | .str _, .num _, h => by simp [tokLt] at h
  | .num _, .str _, _ => rfl
  | .num x, .num y, h => natLtb_asymm x y h

theorem tokLt_eq_of_not : ∀ a b : Tok, tokLt a b = false → tokLt b a = false →
    a = b
  | .str x, .str y, h1, h2 => by rw [listNatLt_eq_of_not x y h1 h2]
  | .str _, .num _, _, h2 => by simp [tokLt] at h2
  | .num _, .str _, h1, _ => by simp [tokLt] at h1
  | .num x, .num y, h1, h2 => by rw [natLtb_eq_of_not x y h1 h2]

theorem tokLt_trans : ∀ a b c : Tok, tokLt a b = true → tokLt b c = true →
    tokLt a c = true
  | .str x, .str y, .str z, h1, h2 => listNatLt_trans x y z h1 h2
  | .num _, .str _, .str _, _, _ => rfl
  | .num _, .num _, .str _, _, _ => rfl
  | .num x, .num y, .num z, h1, h2 => natLtb_trans x y z h1 h2
  | .str _, .num _, _, h1, _ => by simp [tokLt] at h1
  | .str _, .str _, .num _, _, h2 => by simp [tokLt] at h2
  | .num _, .str _, .num _, _, h2 => by simp [tokLt] at h2

theorem keyLt_asymm (x y : List Tok) (h : keyLt x y = true) : keyLt y x = false :=
  lexListLt_asymm tokLt tokLt_asymm x y h

theorem keyLt_eq_of_not (x y : List Tok) (h1 : keyLt x y = false)
    (h2 : keyLt y x = false) : x = y :=
  lexListLt_eq_of_not tokLt tokLt_eq_of_not x y h1 h2

theorem keyLt_trans (x y z : List Tok) (h1 : keyLt x y = true)
    (h2 : keyLt y z = true) : keyLt x z = true :=
  lexListLt_trans tokLt tokLt_trans tokLt_eq_of_not x y z h1 h2

theorem keyLt_irrefl (x : List Tok) : keyLt x x = false := by
  cases h : keyLt x x with
  | false => rfl
  | true => exact absurd h (by simp [keyLt_asymm x x h])

/-- Method `Interval.__lt__` unfolded into its key/coordinate cases. -/
theorem Interval.lt_iff (a b : Interval) :
    Interval.lt a b = true ↔
      keyLt (prep_chrom_comp a.chrom) (prep_chrom_comp b.chrom) = true ∨
        (prep_chrom_comp a.chrom = prep_chrom_comp b.chrom ∧
          (a.chromStart < b.chromStart ∨
            (a.chromStart = b.chromStart ∧ a.chromEnd < b.chromEnd))) := by
  unfold Interval.lt
  cases h1 : keyLt (prep_chrom_comp a.chrom) (prep_chrom_comp b.chrom) with
  | true => simp [h1]
  | false =>
    cases h2 : keyLt (prep_chrom_comp b.chrom) (prep_chrom_comp a.chrom) with
    | true =>
      simp only [h1, if_false, h2, if_true, Bool.false_eq_true, false_iff]
      rintro (h | ⟨he, _⟩)
      · simp [h1] at h
      · rw [he] at h2; simp [keyLt_irrefl] at h2
    | false =>
      have he := keyLt_eq_of_not _ _ h1 h2
      simp [h1, h2, he]

theorem Interval.lt_asymm (a b : Interval) (h : Interval.lt a b = true) :
    Interval.lt b a = false := by
  cases h' : Interval.lt b a with
  | false => rfl
  | true =>
    rw [Interval.lt_iff] at h h'
    rcases h with h | ⟨he, hc⟩ <;> rcases h' with h' | ⟨he', hc'⟩
    · simp [keyLt_asymm _ _ h] at h'
    · rw [he'] at h; simp [keyLt_irrefl] at h
    · rw [he] at h'; simp [keyLt_irrefl] at h'
    · omega

theorem pyLe_total (a b : Interval) : (pyLe a b || pyLe b a) = true := by
  unfold pyLe
  cases h : Interval.lt b a with
  | false => simp
  | true => simp [Interval.lt_asymm b a h]

theorem pyLe_trans (a b c : Interval) (h1 : pyLe a b = true)
    (h2 : pyLe b c = true) : pyLe a c = true := by
  unfold pyLe at h1 h2 ⊢
  simp only [Bool.not_eq_true', Bool.not_eq_true] at h1 h2 ⊢
  cases hca : Interval.lt c a with
  | false => rfl
  | true =>
    exfalso
    rw [Interval.lt_iff] at hca
    have hba : ¬(Interval.lt b a = true) := by simp [h1]
    have hcb : ¬(Interval.lt c b = true) := by simp [h2]
    rw [Interval.lt_iff] at hba hcb
    push_neg at hba hcb
    rcases hca with hk | ⟨hk, hc⟩
    · rcases hba with ⟨hba1, hba2⟩
      rcases hcb with ⟨hcb1, hcb2⟩
      cases hkb : keyLt (prep_chrom_comp b.chrom) (prep_chrom_comp a.chrom) with
      | true => exact absurd hkb hba1
      | false =>
        cases hkab : keyLt (prep_chrom_comp a.chrom)
            (prep_chrom_comp b.chrom) with
        | false =>
          have := keyLt_eq_of_not _ _ hkab hkb
          rw [this] at hk
          exact absurd hk hcb1
        | true => exact absurd (keyLt_trans _ _ _ hk hkab) hcb1
    · rcases hba with ⟨hba1, hba2⟩
      rcases hcb with ⟨hcb1, hcb2⟩
      cases hkb : keyLt (prep_chrom_comp b.chrom) (prep_chrom_comp a.chrom) with
      | true => exact absurd hkb hba1
      | false =>
        cases hkab : keyLt (prep_chrom_comp a.chrom)
            (prep_chrom_comp b.chrom) with
        | true =>
          rw [← hk] at hkab
          exact absurd hkab hcb1
        | false =>
          have heab := keyLt_eq_of_not _ _ hkab hkb
          have h1' := hba2 heab.symm
          have h2' := hcb2 (hk.trans heab)
          omega

theorem keyLt_same_chrom (a b : Interval) (h : a.chrom = b.chrom) :
    prep_chrom_comp a.chrom = prep_chrom_comp b.chrom := by rw [h]

/-- On a shared chromosome `Interval.__lt__` is the start/end lexicographic
comparison. -/
theorem Interval.lt_same_chrom (a b : Interval) (h : a.chrom = b.chrom) :
    (Interval.lt a b = true ↔
      a.chromStart < b.chromStart ∨
        (a.chromStart = b.chromStart ∧ a.chromEnd < b.chromEnd)) := by
  rw [Interval.lt_iff, keyLt_same_chrom a b h]
  simp [keyLt_irrefl]

/-- On a shared chromosome `Interval.__gt__` reduces to the bare start
comparison (its second disjunct repeats the first). -/
theorem Interval.gt_same_chrom (a b : Interval) (h : a.chrom = b.chrom) :
    (Interval.gt a b = true ↔ b.chromStart < a.chromStart) := by
  unfold Interval.gt
  rw [keyLt_same_chrom a b h]
  simp only [keyLt_irrefl, Bool.false_eq_true, if_false]
  constructor
  · intro hg
    simp only [Bool.or_eq_true, Bool.and_eq_true, decide_eq_true_eq] at hg
    omega
  · intro hg
    simp only [Bool.or_eq_true, Bool.and_eq_true, decide_eq_true_eq]
    omega

/-- A sorted-by-`pyLe` pair on a shared chromosome has nondecreasing starts. -/
theorem pyLe_start_mono (a b : Interval) (h : a.chrom = b.chrom)
    (hle : pyLe a b = true) : a.chromStart ≤ b.chromStart := by
  unfold pyLe at hle
  simp only [Bool.not_eq_true'] at hle
  have : ¬(Interval.lt b a = true) := by simp [hle]
  rw [Interval.lt_same_chrom b a h.symm] at this
  push_neg at this
  omega

-- ---------------------------------------------------------------------------
-- `pySort` is a permutation and sorts w.r.t. `pyLe`
-- ---------------------------------------------------------------------------

theorem pyInsert_perm (a : Interval) :
    ∀ l : List Interval, (pyInsert a l).Perm (a :: l)
  | [] => .refl _
  | b :: l => by
    unfold pyInsert
    cases h : pyLe a b with
    | true => simp
    | false =>
      simp only [Bool.false_eq_true, if_false]
      exact ((pyInsert_perm a l).cons b).trans (List.Perm.swap a b l)

theorem pySort_perm : ∀ l : List Interval, (pySort l).Perm l
  | [] => .refl _
  | x :: l => (pyInsert_perm x (pySort l)).trans ((pySort_perm l).cons x)

theorem pyInsert_pairwise (a : Interval) :
    ∀ l : List Interval, l.Pairwise (fun x y => pyLe x y = true) →
      (pyInsert a l).Pairwise (fun x y => pyLe x y = true)
  | [], _ => by simp [pyInsert]
  | b :: l, hp => by
    obtain ⟨hb, hl⟩ := List.pairwise_cons.mp hp
    unfold pyInsert
    cases h : pyLe a b with
    | true =>
      refine List.pairwise_cons.mpr ⟨?_, hp⟩
      intro y hy
      rcases List.mem_cons.mp hy with rfl | hy'
      · exact h
      · exact pyLe_trans a b y h (hb y hy')
    | false =>
      have hba : pyLe b a = true := by
        have htot := pyLe_total a b
        simpa [h] using htot
      simp only [Bool.false_eq_true, if_false]
      refine List.pairwise_cons.mpr ⟨?_, pyInsert_pairwise a l hl⟩
      intro y hy
      rcases List.mem_cons.mp ((pyInsert_perm a l).mem_iff.mp hy) with rfl | hy'
      · exact hba
      · exact hb y hy'

theorem pySort_pairwise : ∀ l : List Interval,
    (pySort l).Pairwise (fun x y => pyLe x y = true)
  | [] => .nil
  | x :: l => pyInsert_pairwise x (pySort l) (pySort_pairwise l)

/-- On a shared chromosome `intersect_BEDtoBED` is the half-open overlap test. -/
theorem intersect_BEDtoBED_same_chrom (q r : Interval) (h : q.chrom = r.chrom) :
    (intersect_BEDtoBED q r = true ↔
      q.chromStart < r.chromEnd ∧ r.chromStart < q.chromEnd) := by
  unfold intersect_BEDtoBED
  rw [if_neg (by simp [h])]
  simp only [Bool.not_eq_eq_eq_not, Bool.not_true, Bool.or_eq_false_iff,
    decide_eq_false_iff_not, not_le]

-- ---------------------------------------------------------------------------
-- The chromosome-level ordered map collects exactly the per-chromosome filters
-- ---------------------------------------------------------------------------

theorem mapLookup_chromAdd_ne {i : Interval} {c : String} (h : i.chrom ≠ c) :
    ∀ m : List (String × List Interval),
      mapLookup c (chromAdd m i) = mapLookup c m
  | [] => by simp [chromAdd, mapLookup, h]
  | (c', l) :: rest => by
    unfold chromAdd
    cases hc : c' == i.chrom with
    | true =>
      have hc' : c' = i.chrom := by simpa using hc
      simp only [if_true]
      unfold mapLookup
      rw [if_neg (by simp [hc', h]), if_neg (by simp [hc', h])]
    | false =>
      simp only [Bool.false_eq_true, if_false]
      unfold mapLookup
      cases hcc : c' == c with
      | true => simp
      | false => simpa using mapLookup_chromAdd_ne h rest

theorem mapLookup_chromAdd_eq {i : Interval} {c : String} (h : i.chrom = c) :
    ∀ m : List (String × List Interval),
      mapLookup c (chromAdd m i) = some ((mapLookup c m).getD [] ++ [i])
  | [] => by simp [chromAdd, mapLookup, h]
  | (c', l) :: rest => by
    unfold chromAdd
    cases hc : c' == i.chrom with
    | true =>
      have hc' : c' = c := by rw [← h]; simpa using hc
      simp [mapLookup, hc']
    | false =>
      have hcc : ¬(c' = c) := by
        intro e
        rw [e, ← h] at hc
        simp at hc
      simp only [Bool.false_eq_true, if_false]
      unfold mapLookup
      rw [if_neg (by simp [hcc]), if_neg (by simp [hcc])]
      exact mapLookup_chromAdd_eq h rest

theorem foldl_chromAdd_lookup_some (c : String) :
    ∀ (l : List Interval) (m : List (String × List Interval))
      (v : List Interval), mapLookup c m = some v →
      mapLookup c (l.foldl chromAdd m) =
        some (v ++ l.filter (fun i => i.chrom == c))
  | [], _, _, h => by simpa using h
  | i :: t, m, v, h => by
    simp only [List.foldl_cons]
    by_cases hic : i.chrom = c
    · have hstep := mapLookup_chromAdd_eq hic m
      rw [h] at hstep
      rw [foldl_chromAdd_lookup_some c t _ _ hstep]
      simp [List.filter_cons, hic]
    · rw [foldl_chromAdd_lookup_some c t _ _
        (by rw [mapLookup_chromAdd_ne hic m, h])]
      simp [List.filter_cons, hic]

theorem foldl_chromAdd_lookup_none (c : String) :
    ∀ (l : List Interval) (m : List (String × List Interval)),
      mapLookup c m = none →
      mapLookup c (l.foldl chromAdd m) =
        if (l.filter (fun i => i.chrom == c)) = [] then none
        else some (l.filter (fun i => i.chrom == c))
  | [], _, h => by simpa using h
  | i :: t, m, h => by
    simp only [List.foldl_cons]
    by_cases hic : i.chrom = c
    · have hstep := mapLookup_chromAdd_eq hic m
      rw [h] at hstep
      rw [foldl_chromAdd_lookup_some c t _ _ hstep]
      simp [List.filter_cons, hic]
    · rw [foldl_chromAdd_lookup_none c t _
        (by rw [mapLookup_chromAdd_ne hic m, h])]
      simp [List.filter_cons, hic]

/-- The chromosome map sends each chromosome to the subsequence of records on
it, and to nothing when there are none. -/
theorem chromGroup_lookup (c : String) (l : List Interval) :
    mapLookup c (chromGroup l) =
      if (l.filter (fun i => i.chrom == c)) = [] then none
      else some (l.filter (fun i => i.chrom == c)) :=
  foldl_chromAdd_lookup_none c l [] rfl

theorem chromAdd_keys (m : List (String × List Interval)) (i : Interval) :
    ∀ k ∈ (chromAdd m i).map Prod.fst, k ∈ m.map Prod.fst ∨ k = i.chrom := by
  induction m with
  | nil => simp [chromAdd]
  | cons e rest ih =>
    obtain ⟨c', l⟩ := e
    unfold chromAdd
    cases hc : c' == i.chrom with
    | true =>
      simp only [if_true, List.map_cons, List.mem_cons]
      rintro k (rfl | hk)
      · exact Or.inl (Or.inl rfl)
      · exact Or.inl (Or.inr hk)
    | false =>
      simp only [Bool.false_eq_true, if_false, List.map_cons, List.mem_cons]
      rintro k (rfl | hk)
      · exact Or.inl (Or.inl rfl)
      · rcases ih k hk with h | h
        · exact Or.inl (Or.inr h)
        · exact Or.inr h

theorem chromAdd_keys_pairwise (i : Interval) :
    ∀ m : List (String × List Interval),
      m.Pairwise (fun e f => e.1 ≠ f.1) →
      (chromAdd m i).Pairwise (fun e f => e.1 ≠ f.1)
  | [], _ => by simp [chromAdd]
  | (c', l) :: rest, hp => by
    obtain ⟨hhead, htail⟩ := List.pairwise_cons.mp hp
    unfold chromAdd
    cases hc : c' == i.chrom with
    | true =>
      refine List.pairwise_cons.mpr ⟨?_, htail⟩
      exact fun f hf => hhead f hf
    | false =>
      simp only [Bool.false_eq_true, if_false]
      refine List.pairwise_cons.mpr ⟨?_, chromAdd_keys_pairwise i rest htail⟩
      intro f hf
      rcases chromAdd_keys rest i f.1 (List.mem_map_of_mem Prod.fst hf) with
        h | h
      · rcases List.mem_map.mp h with ⟨e, he, hef⟩
        have := hhead e he
        rw [← hef]
        exact this
      · rw [h]
        simpa using hc

theorem chromGroup_keys_nodup (l : List Interval) :
    (chromGroup l).Pairwise (fun e f => e.1 ≠ f.1) := by
  suffices h : ∀ (t : List Interval) (m : List (String × List Interval)),
      m.Pairwise (fun e f => e.1 ≠ f.1) →
      (t.foldl chromAdd m).Pairwise (fun e f => e.1 ≠ f.1) from h l [] (by simp)
  intro t
  induction t with
  | nil => exact fun m hm => hm
  | cons i t ih =>
    intro m hm
    exact ih (chromAdd m i) (chromAdd_keys_pairwise i m hm)

-- ---------------------------------------------------------------------------
-- Characterizing the binning loop
-- ---------------------------------------------------------------------------

theorem takeBins_fst (c : String) (per : Nat) :
    ∀ (k : Nat) (cl : List Interval),
      (takeBins c per k cl).1 = (slices per k cl).map (mkIntervalNode c)
  | 0, _ => rfl
  | k + 1, cl => by
    show mkIntervalNode c (cl.take per) :: (takeBins c per k (cl.drop per)).1
      = mkIntervalNode c (cl.take per) ::
          (slices per k (cl.drop per)).map (mkIntervalNode c)
    rw [takeBins_fst c per k (cl.drop per)]

theorem takeBins_snd (c : String) (per : Nat) :
    ∀ (k : Nat) (cl : List Interval),
      (takeBins c per k cl).2 = cl.drop (per * k)
  | 0, cl => by simp [takeBins]
  | k + 1, cl => by
    show (takeBins c per k (cl.drop per)).2 = cl.drop (per * (k + 1))
    rw [takeBins_snd c per k (cl.drop per), List.drop_drop, Nat.mul_succ,
      Nat.add_comm]

theorem slices_flatten (per : Nat) :
    ∀ (k : Nat) (cl : List Interval),
      (slices per k cl).flatten = cl.take (per * k)
  | 0, cl => by simp [slices]
  | k + 1, cl => by
    simp only [slices, List.flatten_cons, slices_flatten per k]
    rw [show per * (k + 1) = per + per * k by ring, List.take_add]

theorem slices_map_length (per : Nat) :
    ∀ (k : Nat) (cl : List Interval), per * k ≤ cl.length →
      (slices per k cl).map List.length = List.replicate k per
  | 0, _, _ => rfl
  | k + 1, cl, h => by
    rw [Nat.mul_succ] at h
    simp only [slices, List.map_cons, List.length_take, List.replicate_succ,
      List.cons.injEq]
    refine ⟨by omega, ?_⟩
    exact slices_map_length per k (cl.drop per)
      (by simp only [List.length_drop]; omega)

theorem slices_succ (per : Nat) :
    ∀ (k : Nat) (cl : List Interval),
      slices per (k + 1) cl = slices per k cl ++ [(cl.drop (per * k)).take per]
  | 0, cl => by simp [slices]
  | k + 1, cl => by
    have hd : (cl.drop per).drop (per * k) = cl.drop (per * (k + 1)) := by
      rw [List.drop_drop, Nat.mul_succ, Nat.add_comm]
    show cl.take per :: slices per (k + 1) (cl.drop per)
      = (cl.take per :: slices per k (cl.drop per)) ++
          [(cl.drop (per * (k + 1))).take per]
    rw [slices_succ per k (cl.drop per), hd, List.cons_append]

theorem slices_sublist (per : Nat) :
    ∀ (k : Nat) (cl : List Interval), ∀ s ∈ slices per k cl, s.Sublist cl
  | 0, _, s, h => by simp [slices] at h
  | k + 1, cl, s, h => by
    rcases List.mem_cons.mp h with rfl | h'
    · exact List.take_sublist per cl
    · exact (slices_sublist per k (cl.drop per) s h').trans
        (List.drop_sublist per cl)

theorem extendLast_append (rest : List Interval) :
    ∀ (bs : List IntervalNode) (nd : IntervalNode),
      extendLast rest (bs ++ [nd]) =
        bs ++ [mkIntervalNode nd.chrom (nd.intervals ++ rest)]
  | [], _ => rfl
  | [_], _ => rfl
  | b :: b' :: bs, nd => by
    show b :: extendLast rest (b' :: bs ++ [nd])
      = b :: (b' :: bs ++ [mkIntervalNode nd.chrom (nd.intervals ++ rest)])
    rw [extendLast_append rest (b' :: bs) nd]

/-- The node built with `isSorted=True` keeps the list it is given. -/
theorem mkIntervalNode_intervals (c : String) (s : List Interval) :
    (mkIntervalNode c s).intervals = s := rfl

theorem map_intervals_mkIntervalNode (c : String) :
    ∀ s : List (List Interval),
      ((s.map (mkIntervalNode c)).map (fun nd => nd.intervals)) = s
  | [] => rfl
  | a :: t => by
    rw [List.map_cons, List.map_cons, mkIntervalNode_intervals,
      map_intervals_mkIntervalNode c t]

/-- Joining the node contents of `binsOf` restores the chromosome's list. -/
theorem binsOf_join (c : String) (per k : Nat) (cl : List Interval)
    (hk : per * k < cl.length → 1 ≤ k) :
    (binsOf c per k cl).flatMap (fun nd => nd.intervals) = cl := by
  unfold binsOf
  simp only [takeBins_snd, takeBins_fst]
  by_cases h : cl.drop (per * k) = []
  · rw [if_pos h]
    have hlen : cl.length ≤ per * k := List.drop_eq_nil_iff.mp h
    rw [List.flatMap_def, map_intervals_mkIntervalNode, slices_flatten,
      List.take_of_length_le hlen]
  · rw [if_neg h]
    have hlen : per * k < cl.length := by
      rcases Nat.lt_or_ge (per * k) cl.length with h' | h'
      · exact h'
      · exact absurd (List.drop_eq_nil_iff.mpr h') h
    obtain ⟨k', rfl⟩ : ∃ k', k = k' + 1 := ⟨k - 1, by have := hk hlen; omega⟩
    rw [slices_succ, List.map_append, List.map_cons, List.map_nil,
      extendLast_append]
    rw [List.flatMap_append, List.flatMap_def, map_intervals_mkIntervalNode,
      slices_flatten]
    simp only [List.flatMap_cons, List.flatMap_nil, mkIntervalNode_intervals,
      List.append_nil]
    have hd : cl.drop (per * (k' + 1)) = (cl.drop (per * k')).drop per := by
      rw [List.drop_drop, Nat.mul_succ]
    rw [hd, List.take_append_drop, List.take_append_drop]

/-- Every bin of `binsOf` is an `IntervalNode` over a sublist of the
chromosome's list, carrying the `_set_bounds` bounds for its contents. -/
theorem binsOf_nodes (c : String) (per k : Nat) (cl : List Interval)
    (hk : per * k < cl.length → 1 ≤ k) :
    ∀ nd ∈ binsOf c per k cl, ∃ s, s.Sublist cl ∧ nd = mkIntervalNode c s := by
  unfold binsOf
  simp only [takeBins_snd, takeBins_fst]
  by_cases h : cl.drop (per * k) = []
  · rw [if_pos h]
    intro nd hnd
    rcases List.mem_map.mp hnd with ⟨s, hs, rfl⟩
    exact ⟨s, slices_sublist per k cl s hs, rfl⟩
  · rw [if_neg h]
    have hlen : per * k < cl.length := by
      rcases Nat.lt_or_ge (per * k) cl.length with h' | h'
      · exact h'
      · exact absurd (List.drop_eq_nil_iff.mpr h') h
    obtain ⟨k', rfl⟩ : ∃ k', k = k' + 1 := ⟨k - 1, by have := hk hlen; omega⟩
    rw [slices_succ, List.map_append, List.map_cons, List.map_nil,
      extendLast_append]
    intro nd hnd
    rcases List.mem_append.mp hnd with hnd' | hnd'
    · rcases List.mem_map.mp hnd' with ⟨s, hs, rfl⟩
      exact ⟨s, slices_sublist per k' cl s hs, rfl⟩
    · simp only [List.mem_singleton] at hnd'
      have hd : cl.drop (per * (k' + 1)) = (cl.drop (per * k')).drop per := by
        rw [List.drop_drop, Nat.mul_succ]
      refine ⟨(cl.drop (per * k')).take per ++ cl.drop (per * (k' + 1)), ?_, by
        rw [hnd']; rfl⟩
      rw [hd, List.take_append_drop]
      exact List.drop_sublist _ cl

theorem binChrom_join (sub : Nat) (c : String) (cl : List Interval) :
    ((binChrom sub c cl).1).flatMap (fun nd => nd.intervals) = cl := by
  unfold binChrom
  by_cases h : cl.length / sub < 1
  · rw [if_pos h]
    exact binsOf_join c 1 cl.length cl (by omega)
  · rw [if_neg h]
    have hsub : sub ≠ 0 := by
      intro h0
      rw [h0, Nat.div_zero] at h
      omega
    exact binsOf_join c (cl.length / sub) sub cl (fun _ => by omega)

theorem binChrom_nodes (sub : Nat) (c : String) (cl : List Interval) :
    ∀ nd ∈ (binChrom sub c cl).1, ∃ s, s.Sublist cl ∧ nd = mkIntervalNode c s := by
  unfold binChrom
  by_cases h : cl.length / sub < 1
  · rw [if_pos h]
    exact binsOf_nodes c 1 cl.length cl (by omega)
  · rw [if_neg h]
    have hsub : sub ≠ 0 := by
      intro h0
      rw [h0, Nat.div_zero] at h
      omega
    exact binsOf_nodes c (cl.length / sub) sub cl (fun _ => by omega)

theorem binAll_lookup_none (c : String) :
    ∀ (sub : Nat) (entries : List (String × List Interval)),
      (mapLookup c (binAll sub entries) = none ↔ mapLookup c entries = none)
  | _, [] => by simp [binAll, mapLookup]
  | sub, (c', clist) :: rest => by
    simp only [binAll, mapLookup]
    cases h : c' == c with
    | true => simp
    | false => simpa using binAll_lookup_none c (binChrom sub c' clist).2 rest

theorem binAll_lookup_some (c : String) :
    ∀ (sub : Nat) (entries : List (String × List Interval))
      (bins : List IntervalNode),
      mapLookup c (binAll sub entries) = some bins →
      ∃ sub' clist, mapLookup c entries = some clist ∧
        bins = (binChrom sub' c clist).1
  | _, [], _ => by simp [binAll, mapLookup]
  | sub, (c', clist) :: rest, bins => by
    simp only [binAll, mapLookup]
    cases h : c' == c with
    | true =>
      intro hb
      have hc : c' = c := by simpa using h
      subst hc
      exact ⟨sub, clist, rfl, (Option.some.inj hb).symm⟩
    | false =>
      intro hb
      exact binAll_lookup_some c (binChrom sub c' clist).2 rest bins hb

-- ---------------------------------------------------------------------------
-- Claim theorems on the intersection algebra
-- ---------------------------------------------------------------------------

/-- C2: evaluation at the failing input.  `intersects` on two `Interval` records
with different chromosome labels and `strandAware = false` returns `true`
(`intersect_BEDtoBED` has `if gobjA.chrom != gobjB.chrom: return True`), although
the claim requires records on different chromosomes never to overlap.  The GTF
routine never compares chromosomes at all, so two GTF records on different
chromosomes also report an overlap whenever their coordinates do. -/
theorem intersect_different_chromosomes_eval :
    intersect (.interval ⟨"chr1", 0, 10, "a"⟩) (.interval ⟨"chr2", 0, 10, "b"⟩)
        false = .ok true ∧
    intersect (.gtf ⟨"chr1", "s", "exon", 1, 10, "0", "+", ".", ""⟩)
        (.gtf ⟨"chr7", "s", "exon", 1, 10, "0", "+", ".", ""⟩) false = .ok true :=
  ⟨rfl, rfl⟩

/-- C3: evaluation at the failing input.  The non-strand-aware intersection is not
symmetric across the Interval/Gtf pairing: with `a` an `Interval` and `b` a `Gtf`,
`intersects(a, b, false)` returns a boolean while `intersects(b, a, false)` raises
`TypeError`, because the dispatcher's fourth branch repeats the third branch's
guard instead of testing `(Gtf, Interval)`. -/
theorem intersect_not_symmetric_eval :
    intersect (.interval ⟨"chr3", 5, 25, "a"⟩)
        (.gtf ⟨"chr3", "havana", "gene", 10, 30, "0", "+", ".", ""⟩) false
      = .ok true ∧
    intersect (.gtf ⟨"chr3", "havana", "gene", 10, 30, "0", "+", ".", ""⟩)
        (.interval ⟨"chr3", 5, 25, "a"⟩) false = .error .typeError :=
  ⟨rfl, rfl⟩

/-- C4: evaluation at the failing input.  For `a = Interval(chr1, 0, 9, A)` and
`b = Interval(chr1, 0, 5, B)` none of `a < b`, `a == b`, `a > b` holds:
`__gt__`'s tie-break on equal starts repeats the start comparison
(`(chromEnd == chromEnd) and (chromStart > chromStart)`) instead of comparing the
ends, so trichotomy fails for same-chromosome, same-start, different-end pairs. -/
theorem interval_order_not_trichotomous :
    Interval.lt ⟨"chr1", 0, 9, "A"⟩ ⟨"chr1", 0, 5, "B"⟩ = false ∧
    Interval.eqb ⟨"chr1", 0, 9, "A"⟩ ⟨"chr1", 0, 5, "B"⟩ = false ∧
    Interval.gt ⟨"chr1", 0, 9, "A"⟩ ⟨"chr1", 0, 5, "B"⟩ = false :=
  ⟨rfl, rfl, rfl⟩

/-- C5: evaluation at the failing input.  `Gtf(chr1, 1, 10)` and
`Interval(chr1, 0, 10)` denote the same genomic span (zero-based bases 0..9), yet
against the third record `t = Gtf(chr1, 10, 20)` (which covers base 9) the Gtf
operand reports an overlap while the Interval operand does not:
`intersect_BEDtoGTF` excludes `gobjB.chromStart >= gobjA.chromEnd` without
adjusting for the GTF 1-based start, losing the overlap at the boundary. -/
theorem coordinate_convention_inconsistent_eval :
    intersect (.gtf ⟨"chr1", "s", "exon", 1, 10, "0", "+", ".", ""⟩)
        (.gtf ⟨"chr1", "s", "exon", 10, 20, "0", "+", ".", ""⟩) false = .ok true ∧
    intersect (.interval ⟨"chr1", 0, 10, "i"⟩)
        (.gtf ⟨"chr1", "s", "exon", 10, 20, "0", "+", ".", ""⟩) false = .ok false :=
  ⟨rfl, rfl⟩

/-- C6: evaluation at the failing input.  The dispatcher raises `TypeError` for
operand pairs made of contiguous kinds: `(Gtf, Interval)` (the duplicated fourth
guard never fires) and `(Bed6, Bed6)` (dispatch tests `type(x) == Interval`
exactly, so the `Bed6`/`Bed12` subclasses match no branch), contradicting the
claim that it fails exactly when an operand is non-contiguous. -/
theorem intersect_dispatch_typeerror_on_contiguous_eval :
    intersect (.gtf ⟨"chrX", "s", "exon", 4, 9, "0", "-", ".", ""⟩)
        (.interval ⟨"chrX", 2, 6, "v"⟩) false = .error .typeError ∧
    intersect (.bed6 ⟨⟨"chr1", 0, 5, "x"⟩, "0", "+"⟩)
        (.bed6 ⟨⟨"chr1", 2, 8, "y"⟩, "0", "+"⟩) false = .error .typeError :=
  ⟨rfl, rfl⟩

/-- C8: the half-open boundary scenarios.  `Interval(chr1, 0, 1000)` overlaps
`Interval(chr1, 999, 2000)` (position 999 lies inside `[0, 1000)`), and does not
overlap `Interval(chr1, 1000, 2000)` (adjacent half-open intervals). -/
theorem intersect_halfopen_boundary_eval :
    intersect (.interval ⟨"chr1", 0, 1000, "f1"⟩)
        (.interval ⟨"chr1", 999, 2000, "f2"⟩) false = .ok true ∧
    intersect (.interval ⟨"chr1", 0, 1000, "f1"⟩)
        (.interval ⟨"chr1", 1000, 2000, "f2"⟩) false = .ok false :=
  ⟨rfl, rfl⟩

/-- For `Interval` operands the dispatcher is `intersect_BEDtoBED`. -/
theorem intersect_interval_interval (q r : Interval) :
    intersect (.interval q) (.interval r) false
      = .ok (intersect_BEDtoBED q r) := rfl

theorem binsOf_sizes_small (c : String) (cl : List Interval) :
    (binsOf c 1 cl.length cl).map (fun nd => nd.intervals.length)
      = List.replicate cl.length 1 := by
  unfold binsOf
  simp only [takeBins_snd, takeBins_fst]
  have hdrop : cl.drop (1 * cl.length) = [] := by
    rw [Nat.one_mul]
    exact List.drop_eq_nil_iff.mpr (le_refl _)
  rw [if_pos hdrop, List.map_map]
  have hcomp : ((fun nd => nd.intervals.length) ∘ mkIntervalNode c)
      = List.length := rfl
  rw [hcomp, slices_map_length 1 cl.length cl (by omega)]

theorem binsOf_sizes_big (c : String) (cl : List Interval) (per : Nat)
    (h20 : per * 20 ≤ cl.length) :
    (binsOf c per 20 cl).map (fun nd => nd.intervals.length)
      = List.replicate 19 per ++ [per + (cl.length - per * 20)] := by
  have hms : per * 20 = per * 19 + per := Nat.mul_succ per 19
  unfold binsOf
  simp only [takeBins_snd, takeBins_fst]
  by_cases h : cl.drop (per * 20) = []
  · rw [if_pos h]
    have hlen : cl.length = per * 20 :=
      le_antisymm (List.drop_eq_nil_iff.mp h) h20
    rw [List.map_map]
    have hcomp : ((fun nd => nd.intervals.length) ∘ mkIntervalNode c)
        = List.length := rfl
    rw [hcomp, slices_map_length per 20 cl h20, hlen, Nat.sub_self,
      Nat.add_zero]
    exact List.replicate_succ' 19 per
  · rw [if_neg h]
    have hsucc : slices per 20 cl
        = slices per 19 cl ++ [(cl.drop (per * 19)).take per] :=
      slices_succ per 19 cl
    rw [hsucc, List.map_append, List.map_cons, List.map_nil, extendLast_append]
    rw [List.map_append, List.map_map]
    have hcomp : ((fun nd => nd.intervals.length) ∘ mkIntervalNode c)
        = List.length := rfl
    rw [hcomp, slices_map_length per 19 cl (by omega)]
    simp only [List.map_cons, List.map_nil, mkIntervalNode_intervals]
    have hlast : ((cl.drop (per * 19)).take per ++ cl.drop (per * 20)).length
        = per + (cl.length - per * 20) := by
      rw [List.length_append, List.length_take, List.length_drop,
        List.length_drop]
      omega
    rw [hlast]

/-- With the requested bin count still 20, a chromosome's records are split
into the claimed bin sizes. -/
theorem binChrom_sizes_20 (c : String) (cl : List Interval) :
    ((binChrom 20 c cl).1).map (fun nd => nd.intervals.length)
      = expectedBinSizes cl.length := by
  unfold binChrom expectedBinSizes
  by_cases h : cl.length / 20 < 1
  · rw [if_pos h, if_pos (by omega)]
    exact binsOf_sizes_small c cl
  · rw [if_neg h, if_neg (by omega)]
    rw [binsOf_sizes_big c cl (cl.length / 20) (by omega)]
    have hmod : cl.length - cl.length / 20 * 20 = cl.length % 20 := by omega
    rw [hmod]

theorem mapLookup_append_skip {α : Type} (c : String) :
    ∀ (A B : List (String × α)), (∀ e ∈ A, e.1 ≠ c) →
      mapLookup c (A ++ B) = mapLookup c B
  | [], _, _ => rfl
  | (c', v) :: A, B, h => by
    show (if c' == c then some v else mapLookup c (A ++ B)) = mapLookup c B
    rw [if_neg (by simpa using h (c', v) (List.mem_cons_self _ _)),
      mapLookup_append_skip c A B (fun e he => h e (List.mem_cons_of_mem _ he))]

/-- While every processed chromosome holds at least 20 records, the threaded
`self.subnodes` stays at the requested 20. -/
theorem binAll_20_append (rest : List (String × List Interval)) :
    ∀ pre : List (String × List Interval), (∀ e ∈ pre, 20 ≤ e.2.length) →
      binAll 20 (pre ++ rest)
        = pre.map (fun e => (e.1, (binChrom 20 e.1 e.2).1)) ++ binAll 20 rest
  | [], _ => rfl
  | (c', cl') :: pre, h => by
    show (c', (binChrom 20 c' cl').1) ::
        binAll (binChrom 20 c' cl').2 (pre ++ rest)
      = ((c', (binChrom 20 c' cl').1) ::
          pre.map (fun e => (e.1, (binChrom 20 e.1 e.2).1))) ++ binAll 20 rest
    have h20 : 20 ≤ cl'.length := h (c', cl') (List.mem_cons_self _ _)
    have hsub : (binChrom 20 c' cl').2 = 20 := by
      unfold binChrom
      rw [if_neg (by omega)]
    rw [hsub, binAll_20_append rest pre
      (fun e he => h e (List.mem_cons_of_mem _ he)), List.cons_append]

/-- C7 (counterexample to the claim as stated): building from two `chr1`
records followed by 45 `chr2` records (already sorted) with the requested bin
count 20: processing `chr1` (2 records, fewer than 20) shrinks `self.subnodes`
to 2 for the rest of the build, so the 45 `chr2` records — for which the claim
predicts 20 bins of floor(45/20)=2 with the last holding 7 — are split into
just 2 bins of sizes 22 and 23: the chromosomes are not binned independently. -/
theorem create_map_bins_not_independent :
    ((mapLookup "chr2" (create_map binCountInput true 20)).map
        (fun bins => bins.map (fun nd => nd.intervals.length)))
      = some [22, 23] ∧
    [22, 23] ≠ expectedBinSizes 45 :=
  ⟨rfl, by decide⟩

/-- C7 (amended): in the built index, a chromosome with `n` sorted records is
split into the claimed bins — 20 bins of `floor(n/20)` records with the
remainder appended to the last when `n ≥ 20`, and `n` singleton bins when
`n < 20` — provided every chromosome placed before it in the map still saw the
requested bin count 20, i.e. held at least 20 records (the shrink of
`self.subnodes` for a small chromosome persists and applies to all later
chromosomes). -/
theorem create_map_bin_sizes (L : List Interval) (isSorted : Bool)
    (pre post : List (String × List Interval)) (c : String)
    (clist : List Interval)
    (hgrp : chromGroup (if isSorted then L else pySort L)
      = pre ++ (c, clist) :: post)
    (hpre : ∀ e ∈ pre, 20 ≤ e.2.length) :
    ∃ bins, mapLookup c (create_map L isSorted 20) = some bins ∧
      bins.map (fun nd => nd.intervals.length) = expectedBinSizes clist.length ∧
      bins.flatMap (fun nd => nd.intervals) = clist := by
  have hmap : create_map L isSorted 20 = binAll 20 (pre ++ (c, clist) :: post) := by
    show binAll 20 (chromGroup (if isSorted then L else pySort L)) = _
    rw [hgrp]
  have hnodup := chromGroup_keys_nodup (if isSorted then L else pySort L)
  rw [hgrp] at hnodup
  have hkeys : ∀ e ∈ pre.map (fun e => (e.1, (binChrom 20 e.1 e.2).1)),
      e.1 ≠ c := by
    intro e he
    rcases List.mem_map.mp he with ⟨e', he', rfl⟩
    have := (List.pairwise_append.mp hnodup).2.2 e' he' (c, clist)
      (List.mem_cons_self _ _)
    simpa using this
  refine ⟨(binChrom 20 c clist).1, ?_, binChrom_sizes_20 c clist,
    binChrom_join 20 c clist⟩
  rw [hmap, binAll_20_append ((c, clist) :: post) pre hpre,
    mapLookup_append_skip c _ _ hkeys]
  show (if c == c then some (binChrom 20 c clist).1
      else mapLookup c (binAll (binChrom 20 c clist).2 post))
    = some (binChrom 20 c clist).1
  rw [if_pos (by simp)]

/-- C7 witness: the amended theorem applied to 45 already-sorted records on
`chr1` alone — 20 bins of 2 records with the last holding 7. -/
theorem create_map_bin_sizes_witness :
    ∃ bins, mapLookup "chr1" (create_map fortyFiveChr1 true 20) = some bins ∧
      bins.map (fun nd => nd.intervals.length)
        = expectedBinSizes fortyFiveChr1.length ∧
      bins.flatMap (fun nd => nd.intervals) = fortyFiveChr1 :=
  create_map_bin_sizes fortyFiveChr1 true [] [] "chr1" fortyFiveChr1
    (by rfl) (by simp)

/-- C10: constructing an `IntervalNode` with `isSorted=False` sorts the
caller's list in place — the list observable after construction is the stable
sort of the original: a permutation of the argument (so the records themselves
are unchanged) arranged ascending (no later element `__lt__`-below an earlier
one) — and the node records the given chromosome and holds that same list. -/
theorem intervalNode_init_sorts_in_place (c : String) (l : List Interval)
    (h : l ≠ []) :
    intervalNode_init c l false
        = some (mkIntervalNode c (pySort l), pySort l) ∧
      (pySort l).Perm l ∧
      (pySort l).Pairwise (fun a b => Interval.lt b a = false) ∧
      (mkIntervalNode c (pySort l)).chrom = c ∧
      (mkIntervalNode c (pySort l)).intervals = pySort l := by
  refine ⟨?_, pySort_perm l, ?_, rfl, rfl⟩
  · show (match pySort l with
      | [] => none
      | _ :: _ => some (mkIntervalNode c (pySort l), pySort l))
        = some (mkIntervalNode c (pySort l), pySort l)
    cases hs : pySort l with
    | nil =>
      exfalso
      have : l.Perm [] := by
        rw [← hs]
        exact (pySort_perm l).symm
      exact h this.eq_nil
    | cons x xs => rfl
  · exact (pySort_pairwise l).imp (fun hab => by
      unfold pyLe at hab
      simpa using hab)

/-- C10 witness: the theorem applied to a concrete out-of-order two-record
list. -/
theorem intervalNode_init_sorts_in_place_witness :
    intervalNode_init "chr1" unsortedPair false
        = some (mkIntervalNode "chr1" (pySort unsortedPair),
            pySort unsortedPair) ∧
      (pySort unsortedPair).Perm unsortedPair ∧
      (pySort unsortedPair).Pairwise (fun a b => Interval.lt b a = false) ∧
      (mkIntervalNode "chr1" (pySort unsortedPair)).chrom = "chr1" ∧
      (mkIntervalNode "chr1" (pySort unsortedPair)).intervals
        = pySort unsortedPair :=
  intervalNode_init_sorts_in_place "chr1" unsortedPair (by decide)

/-- C9: constructing a `Gtf` whose attribute text is
`gene_id "X"; tag "a"; tag "b";` yields the ordered mapping
`gene_id ↦ [X], tag ↦ [a, b]` (repeated keys accumulate in order), and an empty
attribute text yields the empty mapping. -/
theorem gtf_attr_dict_eval :
    (Gtf.mk "chr1" "havana" "gene" 1 100 "0" "+" "."
        "gene_id \"X\"; tag \"a\"; tag \"b\";").attr_dict
      = .ok [("gene_id", [.str "X"]), ("tag", [.str "a", .str "b"])] ∧
    (Gtf.mk "chr1" "havana" "gene" 1 100 "0" "+" "." "").attr_dict = .ok [] :=
  ⟨rfl, rfl⟩

-- ---------------------------------------------------------------------------
-- The shared contiguous comparator is a strict weak order; `pySortC` sorts
-- ---------------------------------------------------------------------------

/-- The shared contiguous `__lt__` unfolded into its key/coordinate cases. -/
theorem contRec_lt_iff (a b : ContRec) :
    ContRec.lt a b = true ↔
      keyLt (prep_chrom_comp a.chrom) (prep_chrom_comp b.chrom) = true ∨
        (prep_chrom_comp a.chrom = prep_chrom_comp b.chrom ∧
          (a.chromStart < b.chromStart ∨
            (a.chromStart = b.chromStart ∧ a.chromEnd < b.chromEnd))) := by
  unfold ContRec.lt
  cases h1 : keyLt (prep_chrom_comp a.chrom) (prep_chrom_comp b.chrom) with
  | true => simp [h1]
  | false =>
    cases h2 : keyLt (prep_chrom_comp b.chrom) (prep_chrom_comp a.chrom) with
    | true =>
      simp only [h1, if_false, h2, if_true, Bool.false_eq_true, false_iff]
      rintro (h | ⟨he, _⟩)
      · simp [h1] at h
      · rw [he] at h2; simp [keyLt_irrefl] at h2
    | false =>
      have he := keyLt_eq_of_not _ _ h1 h2
      simp [h1, h2, he]

theorem contRec_lt_asymm (a b : ContRec) (h : ContRec.lt a b = true) :
    ContRec.lt b a = false := by
  cases h' : ContRec.lt b a with
  | false => rfl
  | true =>
    rw [contRec_lt_iff] at h h'
    rcases h with h | ⟨he, hc⟩ <;> rcases h' with h' | ⟨he', hc'⟩
    · simp [keyLt_asymm _ _ h] at h'
    · rw [he'] at h; simp [keyLt_irrefl] at h
    · rw [he] at h'; simp [keyLt_irrefl] at h'
    · omega

theorem pyLeC_total (a b : ContRec) : (pyLeC a b || pyLeC b a) = true := by
  unfold pyLeC
  cases h : ContRec.lt b a with
  | false => simp
  | true => simp [contRec_lt_asymm b a h]

theorem pyLeC_trans (a b c : ContRec) (h1 : pyLeC a b = true)
    (h2 : pyLeC b c = true) : pyLeC a c = true := by
  unfold pyLeC at h1 h2 ⊢
  simp only [Bool.not_eq_true', Bool.not_eq_true] at h1 h2 ⊢
  cases hca : ContRec.lt c a with
  | false => rfl
  | true =>
    exfalso
    rw [contRec_lt_iff] at hca
    have hba : ¬(ContRec.lt b a = true) := by simp [h1]
    have hcb : ¬(ContRec.lt c b = true) := by simp [h2]
    rw [contRec_lt_iff] at hba hcb
    push_neg at hba hcb
    rcases hca with hk | ⟨hk, hc⟩
    · rcases hba with ⟨hba1, hba2⟩
      rcases hcb with ⟨hcb1, hcb2⟩
      cases hkb : keyLt (prep_chrom_comp b.chrom) (prep_chrom_comp a.chrom) with
      | true => exact absurd hkb hba1
      | false =>
        cases hkab : keyLt (prep_chrom_comp a.chrom)
            (prep_chrom_comp b.chrom) with
        | false =>
          have := keyLt_eq_of_not _ _ hkab hkb
          rw [this] at hk
          exact absurd hk hcb1
        | true => exact absurd (keyLt_trans _ _ _ hk hkab) hcb1
    · rcases hba with ⟨hba1, hba2⟩
      rcases hcb with ⟨hcb1, hcb2⟩
      cases hkb : keyLt (prep_chrom_comp b.chrom) (prep_chrom_comp a.chrom) with
      | true => exact absurd hkb hba1
      | false =>
        cases hkab : keyLt (prep_chrom_comp a.chrom)
            (prep_chrom_comp b.chrom) with
        | true =>
          rw [← hk] at hkab
          exact absurd hkab hcb1
        | false =>
          have heab := keyLt_eq_of_not _ _ hkab hkb
          have h1' := hba2 heab.symm
          have h2' := hcb2 (hk.trans heab)
          omega

/-- On a shared chromosome the contiguous `__lt__` is the start/end
lexicographic comparison. -/
theorem contRec_lt_same_chrom (a b : ContRec) (h : a.chrom = b.chrom) :
    (ContRec.lt a b = true ↔
      a.chromStart < b.chromStart ∨
        (a.chromStart = b.chromStart ∧ a.chromEnd < b.chromEnd)) := by
  rw [contRec_lt_iff, show prep_chrom_comp a.chrom = prep_chrom_comp b.chrom
    from by rw [h]]
  simp [keyLt_irrefl]

/-- On a shared chromosome the contiguous `__gt__` reduces to the bare start
comparison (its second disjunct repeats the first). -/
theorem contRec_gt_same_chrom (a b : ContRec) (h : a.chrom = b.chrom) :
    (ContRec.gt a b = true ↔ b.chromStart < a.chromStart) := by
  unfold ContRec.gt
  rw [show prep_chrom_comp a.chrom = prep_chrom_comp b.chrom from by rw [h]]
  simp only [keyLt_irrefl, Bool.false_eq_true, if_false]
  constructor
  · intro hg
    simp only [Bool.or_eq_true, Bool.and_eq_true, decide_eq_true_eq] at hg
    omega
  · intro hg
    simp only [Bool.or_eq_true, Bool.and_eq_true, decide_eq_true_eq]
    omega

/-- A sorted-by-`pyLeC` pair on a shared chromosome has nondecreasing starts. -/
theorem pyLeC_start_mono (a b : ContRec) (h : a.chrom = b.chrom)
    (hle : pyLeC a b = true) : a.chromStart ≤ b.chromStart := by
  unfold pyLeC at hle
  simp only [Bool.not_eq_true'] at hle
  have : ¬(ContRec.lt b a = true) := by simp [hle]
  rw [contRec_lt_same_chrom b a h.symm] at this
  push_neg at this
  omega

theorem pyInsertC_perm (a : ContRec) :
    ∀ l : List ContRec, (pyInsertC a l).Perm (a :: l)
  | [] => .refl _
  | b :: l => by
    unfold pyInsertC
    cases h : pyLeC a b with
    | true => simp
    | false =>
      simp only [Bool.false_eq_true, if_false]
      exact ((pyInsertC_perm a l).cons b).trans (List.Perm.swap a b l)

theorem pySortC_perm : ∀ l : List ContRec, (pySortC l).Perm l
  | [] => .refl _
  | x :: l => (pyInsertC_perm x (pySortC l)).trans ((pySortC_perm l).cons x)

theorem pyInsertC_pairwise (a : ContRec) :
    ∀ l : List ContRec, l.Pairwise (fun x y => pyLeC x y = true) →
      (pyInsertC a l).Pairwise (fun x y => pyLeC x y = true)
  | [], _ => by simp [pyInsertC]
  | b :: l, hp => by
    obtain ⟨hb, hl⟩ := List.pairwise_cons.mp hp
    unfold pyInsertC
    cases h : pyLeC a b with
    | true =>
      refine List.pairwise_cons.mpr ⟨?_, hp⟩
      intro y hy
      rcases List.mem_cons.mp hy with rfl | hy'
      · exact h
      · exact pyLeC_trans a b y h (hb y hy')
    | false =>
      have hba : pyLeC b a = true := by
        have htot := pyLeC_total a b
        simpa [h] using htot
      simp only [Bool.false_eq_true, if_false]
      refine List.pairwise_cons.mpr ⟨?_, pyInsertC_pairwise a l hl⟩
      intro y hy
      rcases List.mem_cons.mp ((pyInsertC_perm a l).mem_iff.mp hy) with rfl | hy'
      · exact hba
      · exact hb y hy'

theorem pySortC_pairwise : ∀ l : List ContRec,
    (pySortC l).Pairwise (fun x y => pyLeC x y = true)
  | [] => .nil
  | x :: l => pyInsertC_pairwise x (pySortC l) (pySortC_pairwise l)

-- ---------------------------------------------------------------------------
-- Grouping and binning over the contiguous family (mirrors the Interval case)
-- ---------------------------------------------------------------------------

theorem mapLookup_chromAddC_ne {i : ContRec} {c : String} (h : i.chrom ≠ c) :
    ∀ m : List (String × List ContRec),
      mapLookup c (chromAddC m i) = mapLookup c m
  | [] => by simp [chromAddC, mapLookup, h]
  | (c', l) :: rest => by
    unfold chromAddC
    cases hc : c' == i.chrom with
    | true =>
      have hc' : c' = i.chrom := by simpa using hc
      simp only [if_true]
      unfold mapLookup
      rw [if_neg (by simp [hc', h]), if_neg (by simp [hc', h])]
    | false =>
      simp only [Bool.false_eq_true, if_false]
      unfold mapLookup
      cases hcc : c' == c with
      | true => simp
      | false => simpa using mapLookup_chromAddC_ne h rest

theorem mapLookup_chromAddC_eq {i : ContRec} {c : String} (h : i.chrom = c) :
    ∀ m : List (String × List ContRec),
      mapLookup c (chromAddC m i) = some ((mapLookup c m).getD [] ++ [i])
  | [] => by simp [chromAddC, mapLookup, h]
  | (c', l) :: rest => by
    unfold chromAddC
    cases hc : c' == i.chrom with
    | true =>
      have hc' : c' = c := by rw [← h]; simpa using hc
      simp [mapLookup, hc']
    | false =>
      have hcc : ¬(c' = c) := by
        intro e
        rw [e, ← h] at hc
        simp at hc
      simp only [Bool.false_eq_true, if_false]
      unfold mapLookup
      rw [if_neg (by simp [hcc]), if_neg (by simp [hcc])]
      exact mapLookup_chromAddC_eq h rest

theorem foldl_chromAddC_lookup_some (c : String) :
    ∀ (l : List ContRec) (m : List (String × List ContRec))
      (v : List ContRec), mapLookup c m = some v →
      mapLookup c (l.foldl chromAddC m) =
        some (v ++ l.filter (fun i => i.chrom == c))
  | [], _, _, h => by simpa using h
  | i :: t, m, v, h => by
    simp only [List.foldl_cons]
    by_cases hic : i.chrom = c
    · have hstep := mapLookup_chromAddC_eq hic m
      rw [h] at hstep
      rw [foldl_chromAddC_lookup_some c t _ _ hstep]
      simp [List.filter_cons, hic]
    · rw [foldl_chromAddC_lookup_some c t _ _
        (by rw [mapLookup_chromAddC_ne hic m, h])]
      simp [List.filter_cons, hic]

theorem foldl_chromAddC_lookup_none (c : String) :
    ∀ (l : List ContRec) (m : List (String × List ContRec)),
      mapLookup c m = none →
      mapLookup c (l.foldl chromAddC m) =
        if (l.filter (fun i => i.chrom == c)) = [] then none
        else some (l.filter (fun i => i.chrom == c))
  | [], _, h => by simpa using h
  | i :: t, m, h => by
    simp only [List.foldl_cons]
    by_cases hic : i.chrom = c
    · have hstep := mapLookup_chromAddC_eq hic m
      rw [h] at hstep
      rw [foldl_chromAddC_lookup_some c t _ _ hstep]
      simp [List.filter_cons, hic]
    · rw [foldl_chromAddC_lookup_none c t _
        (by rw [mapLookup_chromAddC_ne hic m, h])]
      simp [List.filter_cons, hic]

/-- The contiguous chromosome map sends each chromosome to the subsequence of
records on it, and to nothing when there are none. -/
theorem chromGroupC_lookup (c : String) (l : List ContRec) :
    mapLookup c (chromGroupC l) =
      if (l.filter (fun i => i.chrom == c)) = [] then none
      else some (l.filter (fun i => i.chrom == c)) :=
  foldl_chromAddC_lookup_none c l [] rfl

theorem takeBinsC_fst (c : String) (per : Nat) :
    ∀ (k : Nat) (cl : List ContRec),
      (takeBinsC c per k cl).1 = (slicesC per k cl).map (mkContNode c)
  | 0, _ => rfl
  | k + 1, cl => by
    show mkContNode c (cl.take per) :: (takeBinsC c per k (cl.drop per)).1
      = mkContNode c (cl.take per) ::
          (slicesC per k (cl.drop per)).map (mkContNode c)
    rw [takeBinsC_fst c per k (cl.drop per)]

theorem takeBinsC_snd (c : String) (per : Nat) :
    ∀ (k : Nat) (cl : List ContRec),
      (takeBinsC c per k cl).2 = cl.drop (per * k)
  | 0, cl => by simp [takeBinsC]
  | k + 1, cl => by
    show (takeBinsC c per k (cl.drop per)).2 = cl.drop (per * (k + 1))
    rw [takeBinsC_snd c per k (cl.drop per), List.drop_drop, Nat.mul_succ,
      Nat.add_comm]

theorem slicesC_flatten (per : Nat) :
    ∀ (k : Nat) (cl : List ContRec),
      (slicesC per k cl).flatten = cl.take (per * k)
  | 0, cl => by simp [slicesC]
  | k + 1, cl => by
    simp only [slicesC, List.flatten_cons, slicesC_flatten per k]
    rw [show per * (k + 1) = per + per * k by ring, List.take_add]

theorem slicesC_succ (per : Nat) :
    ∀ (k : Nat) (cl : List ContRec),
      slicesC per (k + 1) cl
        = slicesC per k cl ++ [(cl.drop (per * k)).take per]
  | 0, cl => by simp [slicesC]
  | k + 1, cl => by
    have hd : (cl.drop per).drop (per * k) = cl.drop (per * (k + 1)) := by
      rw [List.drop_drop, Nat.mul_succ, Nat.add_comm]
    show cl.take per :: slicesC per (k + 1) (cl.drop per)
      = (cl.take per :: slicesC per k (cl.drop per)) ++
          [(cl.drop (per * (k + 1))).take per]
    rw [slicesC_succ per k (cl.drop per), hd, List.cons_append]

theorem slicesC_sublist (per : Nat) :
    ∀ (k : Nat) (cl : List ContRec), ∀ s ∈ slicesC per k cl, s.Sublist cl
  | 0, _, s, h => by simp [slicesC] at h
  | k + 1, cl, s, h => by
    rcases List.mem_cons.mp h with rfl | h'
    · exact List.take_sublist per cl
    · exact (slicesC_sublist per k (cl.drop per) s h').trans
        (List.drop_sublist per cl)

theorem extendLastC_append (rest : List ContRec) :
    ∀ (bs : List ContNode) (nd : ContNode),
      extendLastC rest (bs ++ [nd]) =
        bs ++ [mkContNode nd.chrom (nd.intervals ++ rest)]
  | [], _ => rfl
  | [_], _ => rfl
  | b :: b' :: bs, nd => by
    show b :: extendLastC rest (b' :: bs ++ [nd])
      = b :: (b' :: bs ++ [mkContNode nd.chrom (nd.intervals ++ rest)])
    rw [extendLastC_append rest (b' :: bs) nd]

/-- The contiguous node keeps the list it is given. -/
theorem mkContNode_intervals (c : String) (s : List ContRec) :
    (mkContNode c s).intervals = s := rfl

theorem map_intervals_mkContNode (c : String) :
    ∀ s : List (List ContRec),
      ((s.map (mkContNode c)).map (fun nd => nd.intervals)) = s
  | [] => rfl
  | a :: t => by
    rw [List.map_cons, List.map_cons, mkContNode_intervals,
      map_intervals_mkContNode c t]

/-- Joining the node contents of `binsOfC` restores the chromosome's list. -/
theorem binsOfC_join (c : String) (per k : Nat) (cl : List ContRec)
    (hk : per * k < cl.length → 1 ≤ k) :
    (binsOfC c per k cl).flatMap (fun nd => nd.intervals) = cl := by
  unfold binsOfC
  simp only [takeBinsC_snd, takeBinsC_fst]
  by_cases h : cl.drop (per * k) = []
  · rw [if_pos h]
    have hlen : cl.length ≤ per * k := List.drop_eq_nil_iff.mp h
    rw [List.flatMap_def, map_intervals_mkContNode, slicesC_flatten,
      List.take_of_length_le hlen]
  · rw [if_neg h]
    have hlen : per * k < cl.length := by
      rcases Nat.lt_or_ge (per * k) cl.length with h' | h'
      · exact h'
      · exact absurd (List.drop_eq_nil_iff.mpr h') h
    obtain ⟨k', rfl⟩ : ∃ k', k = k' + 1 := ⟨k - 1, by have := hk hlen; omega⟩
    rw [slicesC_succ, List.map_append, List.map_cons, List.map_nil,
      extendLastC_append]
    rw [List.flatMap_append, List.flatMap_def, map_intervals_mkContNode,
      slicesC_flatten]
    simp only [List.flatMap_cons, List.flatMap_nil, mkContNode_intervals,
      List.append_nil]
    have hd : cl.drop (per * (k' + 1)) = (cl.drop (per * k')).drop per := by
      rw [List.drop_drop, Nat.mul_succ]
    rw [hd, List.take_append_drop, List.take_append_drop]

/-- Every bin of `binsOfC` is a node over a sublist of the chromosome's list,
carrying the `_set_bounds` bounds for its contents. -/
theorem binsOfC_nodes (c : String) (per k : Nat) (cl : List ContRec)
    (hk : per * k < cl.length → 1 ≤ k) :
    ∀ nd ∈ binsOfC c per k cl, ∃ s, s.Sublist cl ∧ nd = mkContNode c s := by
  unfold binsOfC
  simp only [takeBinsC_snd, takeBinsC_fst]
  by_cases h : cl.drop (per * k) = []
  · rw [if_pos h]
    intro nd hnd
    rcases List.mem_map.mp hnd with ⟨s, hs, rfl⟩
    exact ⟨s, slicesC_sublist per k cl s hs, rfl⟩
  · rw [if_neg h]
    have hlen : per * k < cl.length := by
      rcases Nat.lt_or_ge (per * k) cl.length with h' | h'
      · exact h'
      · exact absurd (List.drop_eq_nil_iff.mpr h') h
    obtain ⟨k', rfl⟩ : ∃ k', k = k' + 1 := ⟨k - 1, by have := hk hlen; omega⟩
    rw [slicesC_succ, List.map_append, List.map_cons, List.map_nil,
      extendLastC_append]
    intro nd hnd
    rcases List.mem_append.mp hnd with hnd' | hnd'
    · rcases List.mem_map.mp hnd' with ⟨s, hs, rfl⟩
      exact ⟨s, slicesC_sublist per k' cl s hs, rfl⟩
    · simp only [List.mem_singleton] at hnd'
      have hd : cl.drop (per * (k' + 1)) = (cl.drop (per * k')).drop per := by
        rw [List.drop_drop, Nat.mul_succ]
      refine ⟨(cl.drop (per * k')).take per ++ cl.drop (per * (k' + 1)), ?_, by
        rw [hnd']; rfl⟩
      rw [hd, List.take_append_drop]
      exact List.drop_sublist _ cl

theorem binChromC_join (sub : Nat) (c : String) (cl : List ContRec) :
    ((binChromC sub c cl).1).flatMap (fun nd => nd.intervals) = cl := by
  unfold binChromC
  by_cases h : cl.length / sub < 1
  · rw [if_pos h]
    exact binsOfC_join c 1 cl.length cl (by omega)
  · rw [if_neg h]
    have hsub : sub ≠ 0 := by
      intro h0
      rw [h0, Nat.div_zero] at h
      omega
    exact binsOfC_join c (cl.length / sub) sub cl (fun _ => by omega)

theorem binChromC_nodes (sub : Nat) (c : String) (cl : List ContRec) :
    ∀ nd ∈ (binChromC sub c cl).1, ∃ s, s.Sublist cl ∧ nd = mkContNode c s := by
  unfold binChromC
  by_cases h : cl.length / sub < 1
  · rw [if_pos h]
    exact binsOfC_nodes c 1 cl.length cl (by omega)
  · rw [if_neg h]
    have hsub : sub ≠ 0 := by
      intro h0
      rw [h0, Nat.div_zero] at h
      omega
    exact binsOfC_nodes c (cl.length / sub) sub cl (fun _ => by omega)

theorem binAllC_lookup_none (c : String) :
    ∀ (sub : Nat) (entries : List (String × List ContRec)),
      (mapLookup c (binAllC sub entries) = none ↔ mapLookup c entries = none)
  | _, [] => by simp [binAllC, mapLookup]
  | sub, (c', clist) :: rest => by
    simp only [binAllC, mapLookup]
    cases h : c' == c with
    | true => simp
    | false => simpa using binAllC_lookup_none c (binChromC sub c' clist).2 rest

theorem binAllC_lookup_some (c : String) :
    ∀ (sub : Nat) (entries : List (String × List ContRec))
      (bins : List ContNode),
      mapLookup c (binAllC sub entries) = some bins →
      ∃ sub' clist, mapLookup c entries = some clist ∧
        bins = (binChromC sub' c clist).1
  | _, [], _ => by simp [binAllC, mapLookup]
  | sub, (c', clist) :: rest, bins => by
    simp only [binAllC, mapLookup]
    cases h : c' == c with
    | true =>
      intro hb
      have hc : c' = c := by simpa using h
      subst hc
      exact ⟨sub, clist, rfl, (Option.some.inj hb).symm⟩
    | false =>
      intro hb
      exact binAllC_lookup_some c (binChromC sub c' clist).2 rest bins hb

-- ---------------------------------------------------------------------------
-- Soundness of the bin-bound prune and the early-stop scan, in zero-indexed
-- closed-interval terms
-- ---------------------------------------------------------------------------

theorem le_maxZeroIdxEndC : ∀ l : List ContRec, ∀ r ∈ l,
    r.zero_idx_end ≤ maxZeroIdxEndC l
  | [], r, h => by simp at h
  | [i], r, h => by
    rcases List.mem_singleton.mp h with rfl
    exact le_refl _
  | i :: j :: is, r, h => by
    rcases List.mem_cons.mp h with rfl | h'
    · exact le_max_left _ _
    · exact le_trans (le_maxZeroIdxEndC (j :: is) r h') (le_max_right _ _)

theorem headZeroIdxStartC_le (l : List ContRec)
    (hp : l.Pairwise (fun a b => a.zero_idx_start ≤ b.zero_idx_start)) :
    ∀ r ∈ l, headZeroIdxStartC l ≤ r.zero_idx_start := by
  cases l with
  | nil => intro r hr; simp at hr
  | cons x xs =>
    intro r hr
    rcases List.mem_cons.mp hr with rfl | hr'
    · exact le_refl _
    · exact (List.pairwise_cons.mp hp).1 r hr'

/-- If a bin's precomputed bounds do not overlap the query, no record inside
the bin does: the bound prune has no false negatives w.r.t. the zero-indexed
closed overlap. -/
theorem binBoundsC_prune (q : ContRec) (c : String) (s : List ContRec)
    (hp : s.Pairwise (fun a b => a.zero_idx_start ≤ b.zero_idx_start))
    (hb : binBoundsOverlapC q (mkContNode c s) = false) :
    ∀ r ∈ s, zOverlap q r = false := by
  intro r hr
  have hmax := le_maxZeroIdxEndC s r hr
  have hmin := headZeroIdxStartC_le s hp r hr
  unfold binBoundsOverlapC at hb
  simp only [Bool.not_eq_false', Bool.or_eq_true, decide_eq_true_eq] at hb
  have hb' : maxZeroIdxEndC s < q.zero_idx_start ∨
      headZeroIdxStartC s > q.zero_idx_end := hb
  cases hv : zOverlap q r with
  | false => rfl
  | true =>
    exfalso
    unfold zOverlap at hv
    simp only [Bool.not_eq_eq_eq_not, Bool.not_true, Bool.or_eq_false_iff,
      decide_eq_false_iff_not, not_lt] at hv
    omega

/-- On a sorted bin of well-formed records whose overlap test against the
query evaluates to the zero-indexed closed rule, the early-stopping scan
returns exactly the overlapping records. -/
theorem scanBinC_eq_filter (q : ContRec) :
    ∀ s : List ContRec,
      (∀ r ∈ s, intersect q.toGObj r.toGObj false = .ok (zOverlap q r)) →
      (∀ r ∈ s, (ContRec.gt r q = true ↔
        q.zero_idx_start < r.zero_idx_start)) →
      (∀ r ∈ s, r.zero_idx_start ≤ r.zero_idx_end) →
      s.Pairwise (fun a b => a.zero_idx_start ≤ b.zero_idx_start) →
      scanBinC q s = .ok (s.filter (fun r => zOverlap q r))
  | [], _, _, _, _ => rfl
  | r :: rs, hov, hgt, hwfz, hp => by
    obtain ⟨hhead, htail⟩ := List.pairwise_cons.mp hp
    have hov' := fun x hx => hov x (List.mem_cons_of_mem r hx)
    have hgt' := fun x hx => hgt x (List.mem_cons_of_mem r hx)
    have hwfz' := fun x hx => hwfz x (List.mem_cons_of_mem r hx)
    unfold scanBinC
    cases hres : intersect q.toGObj r.toGObj false with
    | error e =>
      rw [hov r (List.mem_cons_self r rs)] at hres
      exact Except.noConfusion hres
    | ok ov =>
      have hov0 := hov r (List.mem_cons_self r rs)
      rw [hres] at hov0
      have hov1 : ov = zOverlap q r := Except.ok.inj hov0
      subst hov1
      show (if zOverlap q r then
          match scanBinC q rs with
          | .error e => Except.error e
          | .ok rest => Except.ok (r :: rest)
        else if ContRec.gt r q then Except.ok []
        else scanBinC q rs)
        = Except.ok ((r :: rs).filter (fun x => zOverlap q x))
      cases hz : zOverlap q r with
      | true =>
        rw [if_pos rfl, scanBinC_eq_filter q rs hov' hgt' hwfz' htail,
          List.filter_cons_of_pos hz]
      | false =>
        rw [if_neg Bool.false_ne_true, List.filter_cons_of_neg (by simp [hz])]
        cases hgt0 : ContRec.gt r q with
        | false =>
          rw [if_neg Bool.false_ne_true,
            scanBinC_eq_filter q rs hov' hgt' hwfz' htail]
        | true =>
          rw [if_pos rfl]
          have hqs : q.zero_idx_start < r.zero_idx_start :=
            (hgt r (List.mem_cons_self r rs)).mp hgt0
          have hwfr := hwfz r (List.mem_cons_self r rs)
          have hz' : r.zero_idx_end < q.zero_idx_start ∨
              r.zero_idx_start > q.zero_idx_end := by
            have := hz
            unfold zOverlap at this
            simpa only [Bool.not_eq_false', Bool.or_eq_true,
              decide_eq_true_eq] using this
          have hpast : r.zero_idx_start > q.zero_idx_end := by omega
          congr 1
          symm
          rw [List.filter_eq_nil_iff]
          intro x hx hxz
          have hmono := hhead x hx
          unfold zOverlap at hxz
          simp only [Bool.not_eq_eq_eq_not, Bool.not_true,
            Bool.or_eq_false_iff, decide_eq_false_iff_not, not_lt] at hxz
          omega

/-- Scanning the pruned bins collects exactly the per-bin overlap filters. -/
theorem scanBinsC_filtered (q : ContRec) :
    ∀ bins : List ContNode,
      (∀ nd ∈ bins, ∃ c s, nd = mkContNode c s ∧
        (∀ r ∈ s, intersect q.toGObj r.toGObj false = .ok (zOverlap q r)) ∧
        (∀ r ∈ s, (ContRec.gt r q = true ↔
          q.zero_idx_start < r.zero_idx_start)) ∧
        (∀ r ∈ s, r.zero_idx_start ≤ r.zero_idx_end) ∧
        s.Pairwise (fun a b => a.zero_idx_start ≤ b.zero_idx_start)) →
      scanBinsC q (bins.filter (binBoundsOverlapC q))
        = .ok (bins.flatMap
            (fun nd => nd.intervals.filter (fun r => zOverlap q r)))
  | [], _ => rfl
  | nd :: bins, h => by
    obtain ⟨c, s, rfl, hov, hgt, hwfz, hp⟩ := h nd (List.mem_cons_self nd bins)
    have h' := fun x hx => h x (List.mem_cons_of_mem _ hx)
    cases hbb : binBoundsOverlapC q (mkContNode c s) with
    | true =>
      rw [List.filter_cons_of_pos hbb]
      unfold scanBinsC
      rw [mkContNode_intervals, scanBinC_eq_filter q s hov hgt hwfz hp,
        scanBinsC_filtered q bins h', List.flatMap_cons, mkContNode_intervals]
    | false =>
      rw [List.filter_cons_of_neg (by simp [hbb]), List.flatMap_cons,
        mkContNode_intervals]
      have hnil : s.filter (fun r => zOverlap q r) = [] := by
        rw [List.filter_eq_nil_iff]
        intro r hr hv
        rw [binBoundsC_prune q c s hp hbb r hr] at hv
        exact Bool.false_ne_true hv
      rw [hnil, List.nil_append, scanBinsC_filtered q bins h']

-- ---------------------------------------------------------------------------
-- Correctness of the full query on an index built from a contiguous collection
-- ---------------------------------------------------------------------------

theorem intersect_IntervalMap_toGObj (q : ContRec)
    (m : List (String × List ContNode)) :
    intersect_IntervalMap q.toGObj m
      = match mapLookup q.chrom m with
        | none => .ok []
        | some bins => scanBinsC q (bins.filter (binBoundsOverlapC q)) := by
  cases q <;> rfl

/-- The dispatcher's Interval/Interval branch evaluates the closed
zero-indexed overlap whenever the operands share a chromosome. -/
theorem interval_zOverlap (q r : Interval) (h : r.chrom = q.chrom) :
    intersect (GObj.interval q) (GObj.interval r) false
      = .ok (zOverlap (.interval q) (.interval r)) := by
  have h1 : zOverlap (.interval q) (.interval r)
      = intersect_BEDtoBED q r := by
    show (!(decide (r.chromEnd - 1 < q.chromStart) ||
        decide (r.chromStart > q.chromEnd - 1)))
      = intersect_BEDtoBED q r
    unfold intersect_BEDtoBED
    rw [if_neg (by simp [h])]
    rw [decide_eq_decide.mpr (show r.chromEnd - 1 < q.chromStart ↔
        r.chromEnd ≤ q.chromStart from by omega),
      decide_eq_decide.mpr (show r.chromStart > q.chromEnd - 1 ↔
        r.chromStart ≥ q.chromEnd from by omega)]
  rw [intersect_interval_interval, h1]

/-- The dispatcher's Gtf/Gtf branch evaluates the closed zero-indexed overlap
(on any chromosomes: the source routine never compares them). -/
theorem gtf_zOverlap (q r : Gtf) :
    intersect (GObj.gtf q) (GObj.gtf r) false
      = .ok (zOverlap (.gtf q) (.gtf r)) := by
  have h1 : zOverlap (.gtf q) (.gtf r) = intersect_GTFtoGTF q r false := by
    show (!(decide (r.chromEnd - 1 < q.chromStart - 1) ||
        decide (r.chromStart - 1 > q.chromEnd - 1)))
      = !(decide (r.chromEnd < q.chromStart) ||
        decide (r.chromStart > q.chromEnd))
    rw [decide_eq_decide.mpr (show r.chromEnd - 1 < q.chromStart - 1 ↔
        r.chromEnd < q.chromStart from by omega),
      decide_eq_decide.mpr (show r.chromStart - 1 > q.chromEnd - 1 ↔
        r.chromStart > q.chromEnd from by omega)]
  rw [show intersect (GObj.gtf q) (GObj.gtf r) false
      = Except.ok (intersect_GTFtoGTF q r false) from rfl, h1]

/-- Modelled from the spec: abstract correctness of the section 4.5 query over
an index built from any contiguous collection, under hypotheses the
homogeneous instantiations below discharge — on the query's chromosome the
dispatcher evaluates the closed zero-indexed overlap, the early-stop
comparison agrees with the start order, every record's zero-indexed span is
nonempty, and the sort's start order carries over to zero-indexed starts. -/
theorem intervalMapC_correct (C : List ContRec) (q : ContRec)
    (hov : ∀ r ∈ C, r.chrom = q.chrom →
      intersect q.toGObj r.toGObj false = .ok (zOverlap q r))
    (hgt : ∀ r ∈ C, r.chrom = q.chrom →
      (ContRec.gt r q = true ↔ q.zero_idx_start < r.zero_idx_start))
    (hwfz : ∀ r ∈ C, r.zero_idx_start ≤ r.zero_idx_end)
    (hmono : ∀ a ∈ C, ∀ b ∈ C, a.chrom = q.chrom → b.chrom = q.chrom →
      a.chromStart ≤ b.chromStart → a.zero_idx_start ≤ b.zero_idx_start) :
    ∃ res, intersect_IntervalMap q.toGObj (create_mapC C false 20) = .ok res ∧
      ∀ x, (x ∈ res ↔ x ∈ C ∧ x.chrom = q.chrom ∧ zOverlap q x = true) := by
  have hperm : (pySortC C).Perm C := pySortC_perm C
  have hmemF : ∀ x, x ∈ (pySortC C).filter (fun i => i.chrom == q.chrom) ↔
      x ∈ C ∧ x.chrom = q.chrom := by
    intro x
    rw [List.mem_filter]
    constructor
    · rintro ⟨hx, hc⟩
      exact ⟨hperm.mem_iff.mp hx, by simpa using hc⟩
    · rintro ⟨hx, hc⟩
      exact ⟨hperm.mem_iff.mpr hx, by simpa using hc⟩
  have hcm : create_mapC C false 20
      = binAllC 20 (chromGroupC (pySortC C)) := rfl
  rw [intersect_IntervalMap_toGObj, hcm]
  cases hlk : mapLookup q.chrom (binAllC 20 (chromGroupC (pySortC C))) with
  | none =>
    have hgnone : mapLookup q.chrom (chromGroupC (pySortC C)) = none :=
      (binAllC_lookup_none q.chrom 20 (chromGroupC (pySortC C))).mp hlk
    have hFe : (pySortC C).filter (fun i => i.chrom == q.chrom) = [] := by
      rw [chromGroupC_lookup] at hgnone
      by_cases hf : (pySortC C).filter (fun i => i.chrom == q.chrom) = []
      · exact hf
      · rw [if_neg hf] at hgnone
        exact Option.noConfusion hgnone
    refine ⟨[], rfl, ?_⟩
    intro x
    simp only [List.not_mem_nil, false_iff]
    rintro ⟨hxC, hxc, _⟩
    have hxf : x ∈ (pySortC C).filter (fun i => i.chrom == q.chrom) :=
      (hmemF x).mpr ⟨hxC, hxc⟩
    rw [hFe] at hxf
    exact List.not_mem_nil x hxf
  | some bins =>
    obtain ⟨sub', clist, hgc, hbins⟩ :=
      binAllC_lookup_some q.chrom 20 (chromGroupC (pySortC C)) bins hlk
    have hclist : clist = (pySortC C).filter (fun i => i.chrom == q.chrom) := by
      rw [chromGroupC_lookup] at hgc
      by_cases hf : (pySortC C).filter (fun i => i.chrom == q.chrom) = []
      · rw [if_pos hf] at hgc
        exact Option.noConfusion hgc
      · rw [if_neg hf] at hgc
        exact (Option.some.inj hgc).symm
    have hpF : ((pySortC C).filter (fun i => i.chrom == q.chrom)).Pairwise
        (fun a b => pyLeC a b = true) :=
      (pySortC_pairwise C).filter _
    have hbundle : ∀ nd ∈ bins, ∃ c s, nd = mkContNode c s ∧
        (∀ r ∈ s, intersect q.toGObj r.toGObj false = .ok (zOverlap q r)) ∧
        (∀ r ∈ s, (ContRec.gt r q = true ↔
          q.zero_idx_start < r.zero_idx_start)) ∧
        (∀ r ∈ s, r.zero_idx_start ≤ r.zero_idx_end) ∧
        s.Pairwise (fun a b => a.zero_idx_start ≤ b.zero_idx_start) := by
      intro nd hnd
      rw [hbins] at hnd
      obtain ⟨s, hsub, rfl⟩ := binChromC_nodes sub' q.chrom clist nd hnd
      rw [hclist] at hsub
      refine ⟨q.chrom, s, rfl, ?_, ?_, ?_, ?_⟩
      · intro r hr
        obtain ⟨hrC, hrc⟩ := (hmemF r).mp (hsub.subset hr)
        exact hov r hrC hrc
      · intro r hr
        obtain ⟨hrC, hrc⟩ := (hmemF r).mp (hsub.subset hr)
        exact hgt r hrC hrc
      · intro r hr
        exact hwfz r ((hmemF r).mp (hsub.subset hr)).1
      · have hps : s.Pairwise (fun a b => pyLeC a b = true) :=
          List.Pairwise.sublist hsub hpF
        refine List.Pairwise.imp_of_mem ?_ hps
        intro a b ha hb hle
        obtain ⟨haC, hac⟩ := (hmemF a).mp (hsub.subset ha)
        obtain ⟨hbC, hbc⟩ := (hmemF b).mp (hsub.subset hb)
        exact hmono a haC b hbC hac hbc
          (pyLeC_start_mono a b (hac.trans hbc.symm) hle)
    refine ⟨bins.flatMap (fun nd => nd.intervals.filter (fun r => zOverlap q r)),
      ?_, ?_⟩
    · show scanBinsC q (bins.filter (binBoundsOverlapC q)) = _
      exact scanBinsC_filtered q bins hbundle
    · intro x
      have hjoin : bins.flatMap (fun nd => nd.intervals) = clist := by
        rw [hbins]
        exact binChromC_join sub' q.chrom clist
      have hres : bins.flatMap
          (fun nd => nd.intervals.filter (fun r => zOverlap q r))
          = clist.filter (fun r => zOverlap q r) := by
        rw [← hjoin, List.filter_flatMap]
      rw [hres, hclist, List.mem_filter]
      constructor
      · rintro ⟨hxF, hxz⟩
        obtain ⟨hxC, hxc⟩ := (hmemF x).mp hxF
        exact ⟨hxC, hxc, hxz⟩
      · rintro ⟨hxC, hxc, hxz⟩
        exact ⟨(hmemF x).mpr ⟨hxC, hxc⟩, hxz⟩

/-- C1 (counterexample to the claim as stated, over the contiguous family the
spec's build and query contracts quantify): (a) a `chr1` query against an
index holding one `chr2` record returns nothing while the dispatcher reports
an overlap — the `intersect_BEDtoBED` slip makes the claimed filter set
contain a record the chromosome-keyed index can never return; (b) a `Bed6`
query propagates the dispatcher's `TypeError` instead of returning a set,
because the dispatcher's exact `type(...)` tests exclude the subclasses;
(c) an `Interval` query against an index holding a `Gtf` record covering
zero-indexed bases 0..4 returns nothing — correctly, the spans are
disjoint — while the dispatcher's off-by-one `intersect_BEDtoGTF` boundary
reports an overlap, so even where every call returns a boolean the index and
the claimed filter disagree. -/
theorem intervalMap_query_counterexample :
    (intersect_IntervalMap (GObj.interval ⟨"chr1", 0, 10, "q"⟩)
        (create_mapC [ContRec.interval ⟨"chr2", 0, 10, "r"⟩] false 20)
        = .ok [] ∧
      intersect (GObj.interval ⟨"chr1", 0, 10, "q"⟩)
        (GObj.interval ⟨"chr2", 0, 10, "r"⟩) false = .ok true)
    ∧
    intersect_IntervalMap (GObj.bed6 ⟨⟨"chr1", 0, 10, "q"⟩, "0", "+"⟩)
        (create_mapC [ContRec.bed6 ⟨⟨"chr1", 5, 15, "r"⟩, "0", "+"⟩] false 20)
      = .error .typeError
    ∧
    (intersect_IntervalMap (GObj.interval ⟨"chr1", 5, 10, "q"⟩)
        (create_mapC
          [ContRec.gtf ⟨"chr1", "s", "exon", 1, 5, "0", "+", ".", ""⟩]
          false 20)
        = .ok [] ∧
      intersect (GObj.interval ⟨"chr1", 5, 10, "q"⟩)
        (GObj.gtf ⟨"chr1", "s", "exon", 1, 5, "0", "+", ".", ""⟩) false
        = .ok true) :=
  ⟨⟨rfl, rfl⟩, rfl, rfl, rfl⟩

/-- C1 (amended): the claimed set equality holds for every homogeneous
collection of a single contiguous kind, restricted to the query's chromosome
and to well-formed records. For every collection of well-formed `Interval`
records (`chromStart < chromEnd`, the caller obligation the source leaves
unchecked) and every `Interval` query, and likewise for every collection of
well-formed `Gtf` records (`chromStart ≤ chromEnd`) and every `Gtf` query,
querying the index built from the collection succeeds and returns, as a set,
exactly the records on the query's chromosome for which the dispatcher
reports an overlap — in particular the bin-bound pruning and the early-stop
scan never discard a record on the query's chromosome that truly overlaps
the query. At the claim's stated scope — every contiguous collection and
query, with no chromosome restriction — the property is refuted by the
counterexample above. -/
theorem intervalMap_query_eq_filter :
    (∀ (C : List Interval) (q : Interval),
      (∀ r ∈ C, r.chromStart < r.chromEnd) →
      ∃ res, intersect_IntervalMap (GObj.interval q)
          (create_mapC (C.map ContRec.interval) false 20) = .ok res ∧
        ∀ x, (x ∈ res ↔ x ∈ C.map ContRec.interval ∧
          x.chrom = q.chrom ∧
          intersect (GObj.interval q) x.toGObj false = .ok true))
    ∧
    (∀ (C : List Gtf) (q : Gtf),
      (∀ r ∈ C, r.chromStart ≤ r.chromEnd) →
      ∃ res, intersect_IntervalMap (GObj.gtf q)
          (create_mapC (C.map ContRec.gtf) false 20) = .ok res ∧
        ∀ x, (x ∈ res ↔ x ∈ C.map ContRec.gtf ∧
          x.chrom = q.chrom ∧
          intersect (GObj.gtf q) x.toGObj false = .ok true)) := by
  constructor
  · intro C q hwf
    have hov : ∀ r ∈ C.map ContRec.interval,
        r.chrom = (ContRec.interval q).chrom →
        intersect (ContRec.interval q).toGObj r.toGObj false
          = .ok (zOverlap (.interval q) r) := by
      intro r hr hc
      obtain ⟨i, hi, rfl⟩ := List.mem_map.mp hr
      exact interval_zOverlap q i hc
    have hgt : ∀ r ∈ C.map ContRec.interval,
        r.chrom = (ContRec.interval q).chrom →
        (ContRec.gt r (.interval q) = true ↔
          (ContRec.interval q).zero_idx_start < r.zero_idx_start) := by
      intro r hr hc
      obtain ⟨i, hi, rfl⟩ := List.mem_map.mp hr
      exact contRec_gt_same_chrom (.interval i) (.interval q) hc
    have hwfz : ∀ r ∈ C.map ContRec.interval,
        r.zero_idx_start ≤ r.zero_idx_end := by
      intro r hr
      obtain ⟨i, hi, rfl⟩ := List.mem_map.mp hr
      have hi' := hwf i hi
      show i.chromStart ≤ i.chromEnd - 1
      omega
    have hmono : ∀ a ∈ C.map ContRec.interval, ∀ b ∈ C.map ContRec.interval,
        a.chrom = (ContRec.interval q).chrom →
        b.chrom = (ContRec.interval q).chrom →
        a.chromStart ≤ b.chromStart →
        a.zero_idx_start ≤ b.zero_idx_start := by
      intro a ha b hb _ _ hle
      obtain ⟨i, hi, rfl⟩ := List.mem_map.mp ha
      obtain ⟨j, hj, rfl⟩ := List.mem_map.mp hb
      exact hle
    obtain ⟨res, hres, hmem⟩ := intervalMapC_correct
      (C.map ContRec.interval) (.interval q) hov hgt hwfz hmono
    refine ⟨res, hres, ?_⟩
    intro x
    rw [hmem x]
    constructor
    · rintro ⟨hxC, hxc, hxz⟩
      refine ⟨hxC, hxc, ?_⟩
      obtain ⟨i, hi, rfl⟩ := List.mem_map.mp hxC
      show intersect (GObj.interval q) (GObj.interval i) false = Except.ok true
      rw [interval_zOverlap q i hxc, hxz]
    · rintro ⟨hxC, hxc, hxi⟩
      refine ⟨hxC, hxc, ?_⟩
      obtain ⟨i, hi, rfl⟩ := List.mem_map.mp hxC
      have hxi' : intersect (GObj.interval q) (GObj.interval i) false
          = Except.ok true := hxi
      rw [interval_zOverlap q i hxc] at hxi'
      exact Except.ok.inj hxi'
  · intro C q hwf
    have hov : ∀ r ∈ C.map ContRec.gtf,
        r.chrom = (ContRec.gtf q).chrom →
        intersect (ContRec.gtf q).toGObj r.toGObj false
          = .ok (zOverlap (.gtf q) r) := by
      intro r hr _
      obtain ⟨g, hg, rfl⟩ := List.mem_map.mp hr
      exact gtf_zOverlap q g
    have hgt : ∀ r ∈ C.map ContRec.gtf,
        r.chrom = (ContRec.gtf q).chrom →
        (ContRec.gt r (.gtf q) = true ↔
          (ContRec.gtf q).zero_idx_start < r.zero_idx_start) := by
      intro r hr hc
      obtain ⟨g, hg, rfl⟩ := List.mem_map.mp hr
      have h0 := contRec_gt_same_chrom (.gtf g) (.gtf q) hc
      show ContRec.gt (.gtf g) (.gtf q) = true ↔
        q.chromStart - 1 < g.chromStart - 1
      rw [h0]
      show q.chromStart < g.chromStart ↔ q.chromStart - 1 < g.chromStart - 1
      omega
    have hwfz : ∀ r ∈ C.map ContRec.gtf,
        r.zero_idx_start ≤ r.zero_idx_end := by
      intro r hr
      obtain ⟨g, hg, rfl⟩ := List.mem_map.mp hr
      have hg' := hwf g hg
      show g.chromStart - 1 ≤ g.chromEnd - 1
      omega
    have hmono : ∀ a ∈ C.map ContRec.gtf, ∀ b ∈ C.map ContRec.gtf,
        a.chrom = (ContRec.gtf q).chrom →
        b.chrom = (ContRec.gtf q).chrom →
        a.chromStart ≤ b.chromStart →
        a.zero_idx_start ≤ b.zero_idx_start := by
      intro a ha b hb _ _ hle
      obtain ⟨i, hi, rfl⟩ := List.mem_map.mp ha
      obtain ⟨j, hj, rfl⟩ := List.mem_map.mp hb
      have hle' : i.chromStart ≤ j.chromStart := hle
      show i.chromStart - 1 ≤ j.chromStart - 1
      omega
    obtain ⟨res, hres, hmem⟩ := intervalMapC_correct
      (C.map ContRec.gtf) (.gtf q) hov hgt hwfz hmono
    refine ⟨res, hres, ?_⟩
    intro x
    rw [hmem x]
    constructor
    · rintro ⟨hxC, hxc, hxz⟩
      refine ⟨hxC, hxc, ?_⟩
      obtain ⟨g, hg, rfl⟩ := List.mem_map.mp hxC
      show intersect (GObj.gtf q) (GObj.gtf g) false = Except.ok true
      rw [gtf_zOverlap q g, hxz]
    · rintro ⟨hxC, hxc, hxi⟩
      refine ⟨hxC, hxc, ?_⟩
      obtain ⟨g, hg, rfl⟩ := List.mem_map.mp hxC
      have hxi' : intersect (GObj.gtf q) (GObj.gtf g) false
          = Except.ok true := hxi
      rw [gtf_zOverlap q g] at hxi'
      exact Except.ok.inj hxi'

/-- Witness instantiating both conjuncts at concrete collections and queries:
two well-formed `chr1` intervals against an interval query, and one
well-formed `chr2` GTF record against a GTF query. -/
theorem intervalMap_query_eq_filter_witness :
    (∃ res, intersect_IntervalMap (GObj.interval ⟨"chr1", 4, 9, "q"⟩)
        (create_mapC [ContRec.interval ⟨"chr1", 0, 5, "r1"⟩,
          ContRec.interval ⟨"chr1", 7, 12, "r2"⟩] false 20) = .ok res ∧
      ∀ x, (x ∈ res ↔ x ∈ [ContRec.interval ⟨"chr1", 0, 5, "r1"⟩,
          ContRec.interval ⟨"chr1", 7, 12, "r2"⟩] ∧
        x.chrom = "chr1" ∧
        intersect (GObj.interval ⟨"chr1", 4, 9, "q"⟩) x.toGObj false
          = .ok true))
    ∧
    (∃ res, intersect_IntervalMap
          (GObj.gtf ⟨"chr2", "s", "gene", 6, 12, "0", "+", ".", ""⟩)
          (create_mapC
            [ContRec.gtf ⟨"chr2", "s", "exon", 3, 8, "0", "+", ".", ""⟩]
            false 20)
        = .ok res ∧
      ∀ x, (x ∈ res ↔
        x ∈ [ContRec.gtf ⟨"chr2", "s", "exon", 3, 8, "0", "+", ".", ""⟩] ∧
        x.chrom = "chr2" ∧
        intersect (GObj.gtf ⟨"chr2", "s", "gene", 6, 12, "0", "+", ".", ""⟩)
          x.toGObj false = .ok true)) :=
  ⟨intervalMap_query_eq_filter.1
      [⟨"chr1", 0, 5, "r1"⟩, ⟨"chr1", 7, 12, "r2"⟩] ⟨"chr1", 4, 9, "q"⟩
      (by decide),
    intervalMap_query_eq_filter.2
      [⟨"chr2", "s", "exon", 3, 8, "0", "+", ".", ""⟩]
      ⟨"chr2", "s", "gene", 6, 12, "0", "+", ".", ""⟩ (by decide)⟩

end Gobjects
